import Mathlib

/-!
Verification of the dependency-graph engine of `pr2.py`.

The program works over Python dicts mapping package names (strings) to
ordered lists of direct dependency names.  We embed such a dict as an
association list `Dict := List (String × List String)` preserving insertion
order, with Python dict operations (`d[k] = v`, `d.update(p)`, `k in d`)
modelled by `dictSet`, `dictUpdate` and `List.lookup`.  Recursive and
while-loop traversals are embedded with an explicit fuel parameter;
`none` means the fuel ran out (the Python code would still be running),
`some` is the value the Python code returns (`Except.error` models a
raised `CircularDependencyError`).
-/

namespace PacketManage

/-- A Python dict from package name to ordered dependency list. -/
abbrev Dict := List (String × List String)

/-- The keys of a dict, in insertion order. -/
def keysOf (d : Dict) : List String := d.map Prod.fst

/-- `d.get(k, [])`: the list stored at `k`, or `[]` when `k` is absent. -/
def dictGet (d : Dict) (k : String) : List String :=
  (List.lookup k d).getD []

/-- `d[k] = v`: replace the value at `k` keeping its position, or append
`(k, v)` at the end when `k` is absent — Python dict assignment. -/
def dictSet (d : Dict) (k : String) (v : List String) : Dict :=
  if (List.lookup k d).isSome then
    d.map (fun kv => if kv.1 = k then (k, v) else kv)
  else
    d ++ [(k, v)]

/-- `d.update(p)`: Python dict update, assigning every binding of `p`
into `d` in order. -/
def dictUpdate (d p : Dict) : Dict :=
  p.foldl (fun acc kv => dictSet acc kv.1 kv.2) d

/-- Add an element to a Python set modelled as a duplicate-free list
(insertion order retained). -/
def addSet (l : List String) (x : String) : List String :=
  if x ∈ l then l else l ++ [x]

/-- `sep.join(l)` from Python. -/
def joinWith (sep : String) : List String → String
  | [] => ""
  | [x] => x
  | x :: y :: xs => x ++ sep ++ joinWith sep (y :: xs)

/-- `"\n".join(lines)`. -/
def joinLines (lines : List String) : String := joinWith "\n" lines

/-- The direct-dependency list the source graph records for `x`
(absent keys give `[]`, matching `if pkg in graph: ... graph[pkg]`). -/
def depsOf (g : Dict) (x : String) : List String :=
  (List.lookup x g).getD []

/-! ## Error type (`CircularDependencyError`, pr2.py lines 25–27) -/

/-- `CircularDependencyError(package, path)`. -/
structure CircularDependencyError where
  package : String
  path : List String
deriving DecidableEq, Repr

/-- The exception message:
`f"Circular dependency: {' -> '.join(path + [package])}"`. -/
def CircularDependencyError.message (e : CircularDependencyError) : String :=
  "Circular dependency: " ++ joinWith " -> " (e.path ++ [e.package])

/-! ## The two fixed graphs of `DependencyAnalyzer.__init__` -/

/-- `self.test_dependencies` (pr2.py lines 66–85), in source order. -/
def test_dependencies : Dict :=
  [("A", ["B", "C"]),
   ("B", ["D", "E"]),
   ("C", ["F", "G"]),
   ("D", ["H"]),
   ("E", ["H", "I"]),
   ("F", []),
   ("G", ["I"]),
   ("H", []),
   ("I", []),
   ("J", ["A", "K"]),
   ("K", ["B"]),
   ("L", ["C", "M"]),
   ("M", ["H"]),
   ("N", ["O", "P"]),
   ("O", ["Q"]),
   ("P", ["Q", "R"]),
   ("Q", []),
   ("R", [])]

/-- `self.cyclic_dependencies` (pr2.py lines 87–91). -/
def cyclic_dependencies : Dict :=
  [("X", ["Y"]), ("Y", ["Z"]), ("Z", ["X"])]

/-! ## `DependencyAnalyzer.get_complete_dependencies` (pr2.py 93–123)

`bfs_recursive(pkg, visited, path)` raises on `pkg in path`, returns `{}`
on `pkg in visited`, otherwise records `{pkg: graph[pkg]}` (built up one
dependency at a time) and merges each recursive sub-result.  `visited` is
a mutable set shared across sibling calls, so it is threaded through the
return value; `path` is freshly extended per call. -/

/-- The `for dep in graph[pkg]` loop of `bfs_recursive`, parametrised by
the recursive call (at the fuel level below): append `dep` to
`result[pkg]`, recurse, merge the sub-result into `result`. -/
def bfsLoopF
    (recF : String → List String → List String →
      Option (Except CircularDependencyError (Dict × List String))) :
    List String → String → Dict → List String → List String →
    Option (Except CircularDependencyError (Dict × List String))
  | [], _, acc, visited, _ => some (Except.ok (acc, visited))
  | dep :: ds, pkg, acc, visited, path =>
    match recF dep visited path with
    | none => none
    | some (Except.error e) => some (Except.error e)
    | some (Except.ok (sub, visited2)) =>
      bfsLoopF recF ds pkg
        (dictUpdate (dictSet acc pkg (dictGet acc pkg ++ [dep])) sub)
        visited2 path

/-- One call of `bfs_recursive`.  Returns `none` when the fuel is
exhausted, `some (Except.error e)` for a raised error, and
`some (Except.ok (result, visited))` otherwise. -/
def bfsRec (g : Dict) : Nat → String → List String → List String →
    Option (Except CircularDependencyError (Dict × List String))
  | 0, _, _, _ => none
  | f + 1, pkg, visited, path =>
    if pkg ∈ path then some (Except.error ⟨pkg, path⟩)
    else if pkg ∈ visited then some (Except.ok ([], visited))
    else
      match List.lookup pkg g with
      | some deps =>
        bfsLoopF (bfsRec g f) deps pkg [(pkg, [])] (pkg :: visited)
          (path ++ [pkg])
      | none => some (Except.ok ([(pkg, [])], pkg :: visited))

/-- The dependency loop at fuel `f` (children are explored with the
recursion one fuel level down, exactly as `bfsRec (f + 1)` invokes it). -/
def bfsLoop (g : Dict) (f : Nat) :
    List String → String → Dict → List String → List String →
    Option (Except CircularDependencyError (Dict × List String)) :=
  bfsLoopF (bfsRec g f)

/-- `get_complete_dependencies` with the graph passed explicitly (the
Python closure captures it).  The fuel `g.length + 2` bounds the recursion
depth: the ancestor path never repeats a node and all its members are
keys of `g`. -/
def get_complete_dependencies (g : Dict) (package_name : String) :
    Option (Except CircularDependencyError Dict) :=
  (bfsRec g (g.length + 2) package_name [] []).map (fun r => r.map Prod.fst)

/-! ## `DependencyAnalyzer.get_all_transitive_deps` (pr2.py 125–145) -/

/-- Sum of the dependency-list lengths over entries whose key is not yet
visited — the work remaining for the breadth-first loops. -/
def unvisitedEdges (v : List String) : Dict → Nat
  | [] => 0
  | (k, ds) :: rest => (if k ∈ v then 0 else ds.length) + unvisitedEdges v rest

/-- Fuel that bounds the number of loop iterations of the BFS walks. -/
def graphFuel (g : Dict) : Nat := 1 + g.length + unvisitedEdges [] g

/-- The `for dep in self.test_dependencies[current]` body: collect each
unvisited dep into the result set and append it to the queue. -/
def scanDeps (visited : List String) :
    List String → List String × List String → List String × List String
  | [], p => p
  | dep :: rest, (acc, queue) =>
    scanDeps visited rest
      (if dep ∈ visited then (acc, queue) else (addSet acc dep, queue ++ [dep]))

/-- The `while queue` loop of `get_all_transitive_deps`. -/
def transLoop (g : Dict) : Nat → List String → List String → List String →
    Option (List String)
  | _, [], _, allDeps => some allDeps
  | 0, _ :: _, _, _ => none
  | f + 1, current :: queue, visited, allDeps =>
    if current ∈ visited then transLoop g f queue visited allDeps
    else
      match List.lookup current g with
      | some deps =>
        transLoop g f (scanDeps (current :: visited) deps (allDeps, queue)).2
          (current :: visited) (scanDeps (current :: visited) deps (allDeps, queue)).1
      | none => transLoop g f queue (current :: visited) allDeps

/-- `get_all_transitive_deps`, graph passed explicitly (the Python method
reads `self.test_dependencies`). -/
def get_all_transitive_deps (g : Dict) (package_name : String) :
    Option (List String) :=
  if (List.lookup package_name g).isSome then
    transLoop g (graphFuel g) [package_name] [] []
  else some []

/-! ## Reverse-index construction (pr2.py 150–155 and 176–181) -/

/-- Append `pkg` to the reverse-adjacency list of each of its deps:
the `for dep in dependencies` inner loop. -/
def addRevEdges (pkg : String) : List String → Dict → Dict
  | [], rg => rg
  | dep :: rest, rg =>
    addRevEdges pkg rest (dictSet rg dep (dictGet rg dep ++ [pkg]))

/-- The `for package, dependencies in ...items()` outer loop. -/
def buildRevAux : Dict → Dict → Dict
  | [], rg => rg
  | (pkg, deps) :: rest, rg => buildRevAux rest (addRevEdges pkg deps rg)

/-- The `reverse_graph` built by both `get_reverse_dependencies` and
`get_all_reverse_dependencies`. -/
def buildReverseGraph (g : Dict) : Dict := buildRevAux g []

/-! ## `DependencyAnalyzer.get_reverse_dependencies` (pr2.py 147–173) -/

/-- The `for reverse_dep in reverse_graph[current]` body: collect each
reverse dep that is neither visited nor the root. -/
def scanRevDeps (root : String) (visited : List String) :
    List String → List String × List String → List String × List String
  | [], p => p
  | rd :: rest, (acc, queue) =>
    scanRevDeps root visited rest
      (if rd ∈ visited ∨ rd = root then (acc, queue)
       else (addSet acc rd, queue ++ [rd]))

/-- The `while queue` loop of `get_reverse_dependencies`. -/
def revLoop (rg : Dict) (root : String) :
    Nat → List String → List String → List String → Option (List String)
  | _, [], _, acc => some acc
  | 0, _ :: _, _, _ => none
  | f + 1, current :: queue, visited, acc =>
    if current ∈ visited then revLoop rg root f queue visited acc
    else
      match List.lookup current rg with
      | some rdeps =>
        revLoop rg root f (scanRevDeps root (current :: visited) rdeps (acc, queue)).2
          (current :: visited) (scanRevDeps root (current :: visited) rdeps (acc, queue)).1
      | none => revLoop rg root f queue (current :: visited) acc

/-- `get_reverse_dependencies` over the fixed `test_dependencies`. -/
def get_reverse_dependencies (package_name : String) : Option (List String) :=
  if (List.lookup package_name (buildReverseGraph test_dependencies)).isSome
  then
    revLoop (buildReverseGraph test_dependencies) package_name
      (graphFuel (buildReverseGraph test_dependencies)) [package_name] [] []
  else some []

/-! ## `ASCIIVisualizer.generate_tree` (pr2.py 214–234) -/

/-- The `for i, child in enumerate(children)` loop of `build_tree`,
parametrised by the recursive call: every child except the final one is
rendered with `is_last = false`. -/
def renderChildrenF (btF : String → String → Bool → Option (List String)) :
    List String → String → Option (List String)
  | [], _ => some []
  | [c], prfx => btF c prfx true
  | c :: c2 :: cs, prfx =>
    match btF c prfx false with
    | none => none
    | some lines =>
      match renderChildrenF btF (c2 :: cs) prfx with
      | none => none
      | some rest => some (lines ++ rest)

/-- `build_tree(pkg, prefix, is_last)`: one rendered line for `pkg`
followed by its children's lines. -/
def build_tree (g : Dict) : Nat → String → String → Bool →
    Option (List String)
  | 0, _, _, _ => none
  | f + 1, pkg, prfx, is_last =>
    match List.lookup pkg g with
    | some children =>
      if children.isEmpty then
        some [prfx ++ (if is_last then "└── " else "├── ") ++ pkg]
      else
        match renderChildrenF (build_tree g f) children
            (prfx ++ (if is_last then "    " else "│   ")) with
        | none => none
        | some rest =>
          some ((prfx ++ (if is_last then "└── " else "├── ") ++ pkg) :: rest)
    | none => some [prfx ++ (if is_last then "└── " else "├── ") ++ pkg]

/-- The child-rendering loop at fuel `f`, as `build_tree (f + 1)` uses it. -/
def renderChildren (g : Dict) (f : Nat) :
    List String → String → Option (List String) :=
  renderChildrenF (build_tree g f)

/-- `generate_tree(dependency_graph, root)`. -/
def generate_tree (dependency_graph : Dict) (root : String) : Option String :=
  match List.lookup root dependency_graph with
  | none => some root
  | some _ =>
    (build_tree dependency_graph (dependency_graph.length + 1) root "" true).map
      joinLines

/-! ## `GraphvizVisualizer.generate_dot_graph` (pr2.py 32–54) -/

/-- A DOT edge statement `    "a" -> "b";`. -/
def dotEdge (a b : String) : String :=
  "    \"" ++ a ++ "\" -> \"" ++ b ++ "\";"

/-- `generate_dot_graph(dependency_graph, root_package, graph_type)`. -/
def generate_dot_graph (dependency_graph : Dict) (root_package : String)
    (graph_type : String) : String :=
  let dot_lines : List String :=
    if graph_type = "dependencies" then
      ["digraph Dependencies \x7b",
       "    rankdir=TB;",
       "    node [shape=box, style=filled, fillcolor=lightblue];",
       "    \"" ++ root_package ++ "\" [fillcolor=orange];"]
    else
      ["digraph ReverseDependencies \x7b",
       "    rankdir=BT;",
       "    node [shape=ellipse, style=filled, fillcolor=lightgreen];",
       "    \"" ++ root_package ++ "\" [fillcolor=yellow];"]
  let dot_lines := dependency_graph.foldl
    (fun acc pd => pd.2.foldl
      (fun acc2 dep =>
        acc2 ++ [if graph_type = "dependencies"
                 then dotEdge pd.1 dep
                 else dotEdge dep pd.1]) acc)
    dot_lines
  joinLines (dot_lines ++ ["\x7d"])


/-! ## Dictionary lemmas -/

theorem lookup_nil (k : String) : List.lookup k ([] : Dict) = none := rfl

theorem lookup_cons (k0 : String) (v0 : List String) (rest : Dict) (k : String) :
    List.lookup k ((k0, v0) :: rest) =
      if k = k0 then some v0 else List.lookup k rest := by
  by_cases h : k = k0
  · subst h; simp [List.lookup]
  · have hb : (k == k0) = false := by simp [h]
    simp [List.lookup, hb, h]

theorem keysOf_nil : keysOf [] = [] := rfl

theorem keysOf_cons (kv : String × List String) (d : Dict) :
    keysOf (kv :: d) = kv.1 :: keysOf d := rfl

theorem mem_keysOf_iff (d : Dict) (k : String) :
    k ∈ keysOf d ↔ (List.lookup k d).isSome := by
  induction d with
  | nil => simp [keysOf_nil, lookup_nil]
  | cons kv rest ih =>
    obtain ⟨k0, v0⟩ := kv
    rw [keysOf_cons, lookup_cons]
    by_cases h : k = k0 <;> simp [h, ih]

theorem mem_addSet (l : List String) (x y : String) :
    x ∈ addSet l y ↔ x ∈ l ∨ x = y := by
  unfold addSet
  split <;> rename_i h
  · constructor
    · exact fun hx => Or.inl hx
    · rintro (hx | rfl) <;> [exact hx; exact h]
  · simp

theorem lookup_mapReplace_ne (k : String) (v : List String) (k' : String)
    (h : ¬k' = k) (d : Dict) :
    List.lookup k' (d.map (fun kv => if kv.1 = k then (k, v) else kv)) =
      List.lookup k' d := by
  induction d with
  | nil => rfl
  | cons kv rest ih =>
    obtain ⟨k0, v0⟩ := kv
    rw [List.map_cons]
    by_cases hk0 : k0 = k
    · have : (if (k0, v0).1 = k then (k, v) else (k0, v0)) = (k, v) := by
        simp [hk0]
      rw [this, lookup_cons, lookup_cons, if_neg h, ih, if_neg (hk0 ▸ h)]
    · have : (if (k0, v0).1 = k then (k, v) else (k0, v0)) = (k0, v0) := by
        simp [hk0]
      rw [this, lookup_cons, lookup_cons, ih]

theorem lookup_mapReplace_eq (k : String) (v : List String) (d : Dict)
    (hsome : (List.lookup k d).isSome) :
    List.lookup k (d.map (fun kv => if kv.1 = k then (k, v) else kv)) =
      some v := by
  induction d with
  | nil => simp [lookup_nil] at hsome
  | cons kv rest ih =>
    obtain ⟨k0, v0⟩ := kv
    rw [List.map_cons]
    by_cases hk0 : k0 = k
    · have : (if (k0, v0).1 = k then (k, v) else (k0, v0)) = (k, v) := by
        simp [hk0]
      rw [this, lookup_cons, if_pos rfl]
    · have hne : ¬k = k0 := fun h => hk0 h.symm
      have hrest : (List.lookup k rest).isSome := by
        rw [lookup_cons, if_neg hne] at hsome; exact hsome
      have : (if (k0, v0).1 = k then (k, v) else (k0, v0)) = (k0, v0) := by
        simp [hk0]
      rw [this, lookup_cons, if_neg hne, ih hrest]

theorem lookup_append_single_eq (k : String) (v : List String) (d : Dict)
    (hnone : List.lookup k d = none) :
    List.lookup k (d ++ [(k, v)]) = some v := by
  induction d with
  | nil => simp [lookup_cons]
  | cons kv rest ih =>
    obtain ⟨k0, v0⟩ := kv
    rw [lookup_cons] at hnone
    rw [List.cons_append, lookup_cons]
    by_cases h : k = k0
    · rw [if_pos h] at hnone; exact absurd hnone (by simp)
    · rw [if_neg h] at hnone
      rw [if_neg h, ih hnone]

theorem lookup_append_single_ne (k : String) (v : List String) (k' : String)
    (h : ¬k' = k) (d : Dict) :
    List.lookup k' (d ++ [(k, v)]) = List.lookup k' d := by
  induction d with
  | nil => simp [lookup_cons, lookup_nil, h]
  | cons kv rest ih =>
    obtain ⟨k0, v0⟩ := kv
    rw [List.cons_append, lookup_cons, lookup_cons]
    by_cases hk0 : k' = k0
    · rw [if_pos hk0, if_pos hk0]
    · rw [if_neg hk0, if_neg hk0, ih]

theorem lookup_dictSet (d : Dict) (k : String) (v : List String) (k' : String) :
    List.lookup k' (dictSet d k v) =
      if k' = k then some v else List.lookup k' d := by
  unfold dictSet
  split <;> rename_i hsome
  · by_cases hk' : k' = k
    · subst hk'; rw [if_pos rfl, lookup_mapReplace_eq k' v d hsome]
    · rw [if_neg hk', lookup_mapReplace_ne k v k' hk' d]
  · by_cases hk' : k' = k
    · subst hk'
      rw [if_pos rfl, lookup_append_single_eq k' v d]
      exact Option.not_isSome_iff_eq_none.mp hsome
    · rw [if_neg hk', lookup_append_single_ne k v k' hk' d]

theorem keysOf_mapReplace (k : String) (v : List String) (d : Dict) :
    keysOf (d.map (fun kv => if kv.1 = k then (k, v) else kv)) = keysOf d := by
  induction d with
  | nil => rfl
  | cons kv rest ih =>
    obtain ⟨k0, v0⟩ := kv
    rw [List.map_cons, keysOf_cons, keysOf_cons, ih]
    by_cases hk0 : k0 = k
    · have : (if (k0, v0).1 = k then (k, v) else (k0, v0)) = (k, v) := by
        simp [hk0]
      rw [this]
      simp [hk0]
    · have : (if (k0, v0).1 = k then (k, v) else (k0, v0)) = (k0, v0) := by
        simp [hk0]
      rw [this]

theorem keysOf_dictSet (d : Dict) (k : String) (v : List String) :
    keysOf (dictSet d k v) =
      if (List.lookup k d).isSome then keysOf d else keysOf d ++ [k] := by
  unfold dictSet
  split <;> rename_i hsome
  · exact keysOf_mapReplace k v d
  · simp [keysOf]

theorem nodup_keysOf_dictSet (d : Dict) (k : String) (v : List String)
    (h : (keysOf d).Nodup) : (keysOf (dictSet d k v)).Nodup := by
  rw [keysOf_dictSet]
  split <;> rename_i hsome
  · exact h
  · have hk : k ∉ keysOf d := by
      rw [mem_keysOf_iff]; exact hsome
    simpa [List.nodup_append, hk] using h

theorem lookup_dictUpdate (p : Dict) :
    ∀ d : Dict, (keysOf p).Nodup → ∀ k,
      List.lookup k (dictUpdate d p) =
        if k ∈ keysOf p then List.lookup k p else List.lookup k d := by
  induction p with
  | nil => intro d _ k; simp [dictUpdate, keysOf_nil, lookup_nil]
  | cons kv rest ih =>
    intro d hnd k
    obtain ⟨k0, v0⟩ := kv
    rw [keysOf_cons] at hnd
    have hk0 : k0 ∉ keysOf rest := (List.nodup_cons.mp hnd).1
    have hnd' : (keysOf rest).Nodup := (List.nodup_cons.mp hnd).2
    have hfold : dictUpdate d ((k0, v0) :: rest) =
        dictUpdate (dictSet d k0 v0) rest := rfl
    rw [hfold, ih (dictSet d k0 v0) hnd' k, keysOf_cons, lookup_cons]
    by_cases hmem : k ∈ keysOf rest
    · have hne : ¬(k = k0) := fun h => hk0 (h ▸ hmem)
      rw [if_pos hmem, if_pos (List.mem_cons_of_mem _ hmem), if_neg hne]
    · rw [if_neg hmem]
      by_cases hke : k = k0
      · subst hke
        rw [if_pos (List.mem_cons_self _ _), if_pos rfl, lookup_dictSet,
          if_pos rfl]
      · have : k ∉ k0 :: keysOf rest := by
          simp [hke, hmem]
        rw [if_neg this, lookup_dictSet, if_neg hke]

theorem keysOf_dictUpdate (p : Dict) :
    ∀ d : Dict, (keysOf p).Nodup → (∀ k ∈ keysOf p, k ∉ keysOf d) →
      keysOf (dictUpdate d p) = keysOf d ++ keysOf p := by
  induction p with
  | nil => intro d _ _; simp [dictUpdate, keysOf_nil]
  | cons kv rest ih =>
    intro d hnd hdisj
    obtain ⟨k0, v0⟩ := kv
    rw [keysOf_cons] at hnd hdisj
    have hk0 : k0 ∉ keysOf d := hdisj k0 (List.mem_cons_self _ _)
    have hk0r : k0 ∉ keysOf rest := (List.nodup_cons.mp hnd).1
    have hnd' : (keysOf rest).Nodup := (List.nodup_cons.mp hnd).2
    have hfold : dictUpdate d ((k0, v0) :: rest) =
        dictUpdate (dictSet d k0 v0) rest := rfl
    have hset : keysOf (dictSet d k0 v0) = keysOf d ++ [k0] := by
      rw [keysOf_dictSet]
      have : ¬(List.lookup k0 d).isSome := by
        rw [← mem_keysOf_iff]; exact hk0
      rw [if_neg this]
    rw [hfold, ih (dictSet d k0 v0) hnd' ?_, hset, keysOf_cons]
    · simp
    · intro k hk
      rw [hset]
      have h1 : k ∉ keysOf d := hdisj k (List.mem_cons_of_mem _ hk)
      have h2 : ¬(k = k0) := fun h => hk0r (h ▸ hk)
      simp [h1, h2]

theorem lookup_mem {d : Dict} {k : String} {v : List String}
    (h : List.lookup k d = some v) : (k, v) ∈ d := by
  induction d with
  | nil => simp [lookup_nil] at h
  | cons kv rest ih =>
    obtain ⟨k0, v0⟩ := kv
    rw [lookup_cons] at h
    by_cases hk : k = k0
    · rw [if_pos hk] at h
      injection h with h
      simp [hk, h]
    · rw [if_neg hk] at h
      exact List.mem_cons_of_mem _ (ih h)

theorem mem_lookup_of_nodup {d : Dict} (hnd : (keysOf d).Nodup)
    {k : String} {v : List String} (h : (k, v) ∈ d) :
    List.lookup k d = some v := by
  induction d with
  | nil => simp at h
  | cons kv rest ih =>
    obtain ⟨k0, v0⟩ := kv
    rw [keysOf_cons] at hnd
    have hk0 : k0 ∉ keysOf rest := (List.nodup_cons.mp hnd).1
    have hnd' : (keysOf rest).Nodup := (List.nodup_cons.mp hnd).2
    rw [lookup_cons]
    rcases List.mem_cons.mp h with heq | hmem
    · injection heq with h1 h2
      subst h1; subst h2
      rw [if_pos rfl]
    · have hkmem : k ∈ keysOf rest :=
        List.mem_map.mpr ⟨(k, v), hmem, rfl⟩
      have hne : ¬(k = k0) := fun hh => hk0 (hh ▸ hkmem)
      rw [if_neg hne, ih hnd' hmem]

theorem mem_keysOf_of_lookup {d : Dict} {k : String} {v : List String}
    (h : List.lookup k d = some v) : k ∈ keysOf d := by
  rw [mem_keysOf_iff, h]; rfl

/-! ## Reachability, ancestor chains and the resolver invariants -/

/-- `Reaches g x y`: `y` is `x` itself or reachable from `x` along
direct-dependency edges. -/
inductive Reaches (g : Dict) : String → String → Prop
  | refl (x : String) : Reaches g x x
  | tail {x y z : String} : Reaches g x y → z ∈ depsOf g y → Reaches g x z

/-- Reachability along at least one edge. -/
def ReachesPlus (g : Dict) (x y : String) : Prop :=
  ∃ z, z ∈ depsOf g x ∧ Reaches g z y

/-- A dependency graph is acyclic when no node reaches itself along at
least one edge. -/
def Acyclic (g : Dict) : Prop := ∀ x, ¬ReachesPlus g x x

/-- `AncPath g root path pkg`: `path` is the ancestor chain built by the
recursive walk from `root` down to the node `pkg` currently entered
(`path = []` exactly at the top call on `root`). -/
inductive AncPath (g : Dict) (root : String) : List String → String → Prop
  | nil : AncPath g root [] root
  | snoc {path : List String} {pkg dep : String} :
      AncPath g root path pkg → dep ∈ depsOf g pkg →
      AncPath g root (path ++ [pkg]) dep

/-- A node with a recorded dependency is a key of the graph. -/
theorem mem_keysOf_of_depsOf {g : Dict} {x d : String}
    (h : d ∈ depsOf g x) : x ∈ keysOf g := by
  rw [mem_keysOf_iff]
  cases hl : List.lookup x g with
  | none => rw [depsOf, hl] at h; simp at h
  | some l => rfl

/-- Every member of an ancestor chain reaches the current node along at
least one edge. -/
theorem ancPath_reachesPlus {g : Dict} {root : String} :
    ∀ {path : List String} {pkg : String}, AncPath g root path pkg →
      ∀ x ∈ path, ReachesPlus g x pkg := by
  intro path pkg h
  induction h with
  | nil => intro x hx; simp at hx
  | snoc hprev hdep ih =>
    intro x hx
    rcases List.mem_append.mp hx with hx | hx
    · obtain ⟨z, hz, hr⟩ := ih x hx
      exact ⟨z, hz, hr.tail hdep⟩
    · rw [List.mem_singleton] at hx
      subst hx
      exact ⟨_, hdep, Reaches.refl _⟩

/-- Every member of an ancestor chain is a key of the graph. -/
theorem ancPath_mem_keys {g : Dict} {root : String} :
    ∀ {path : List String} {pkg : String}, AncPath g root path pkg →
      ∀ x ∈ path, x ∈ keysOf g := by
  intro path pkg h
  induction h with
  | nil => intro x hx; simp at hx
  | snoc hprev hdep ih =>
    intro x hx
    rcases List.mem_append.mp hx with hx | hx
    · exact ih x hx
    · rw [List.mem_singleton] at hx
      subst hx
      exact mem_keysOf_of_depsOf hdep

/-- The invariant of the shared `visited` set: every visited node either
still sits on the active ancestor path (its expansion is in progress) or
is fully expanded, with all its direct deps visited. -/
def VisitedInv (g : Dict) (path V : List String) : Prop :=
  ∀ x ∈ V, x ∈ path ∨ (∀ d ∈ depsOf g x, d ∈ V)

/-- Postcondition of one `bfs_recursive` call. -/
def RecPost (g : Dict) (root pkg : String) (V path : List String) :
    Except CircularDependencyError (Dict × List String) → Prop
  | Except.error e => e.package ∈ e.path ∧ AncPath g root e.path e.package
  | Except.ok (res, V2) =>
      (∀ x ∈ V, x ∈ V2) ∧ pkg ∈ V2 ∧
      (∀ x, x ∈ keysOf res ↔ (x ∈ V2 ∧ x ∉ V)) ∧
      (keysOf res).Nodup ∧
      (∀ x ∈ keysOf res, List.lookup x res = some (depsOf g x)) ∧
      VisitedInv g path V2

/-- Postcondition of the dependency loop of `bfs_recursive`. -/
def LoopPost (g : Dict) (root pkg : String) (ds accKeys V path : List String) :
    Except CircularDependencyError (Dict × List String) → Prop
  | Except.error e => e.package ∈ e.path ∧ AncPath g root e.path e.package
  | Except.ok (res, V2) =>
      (∀ x ∈ V, x ∈ V2) ∧
      (∀ x, x ∈ keysOf res ↔ (x ∈ accKeys ∨ (x ∈ V2 ∧ x ∉ V))) ∧
      (keysOf res).Nodup ∧
      (∀ x ∈ keysOf res, x ≠ pkg → List.lookup x res = some (depsOf g x)) ∧
      List.lookup pkg res = some (depsOf g pkg) ∧
      VisitedInv g path V2 ∧
      (∀ d ∈ ds, d ∈ V2)

/-- The loop postcondition when the dependency list is exhausted. -/
theorem loopPost_nil {g : Dict} {root pkg : String} {acc : Dict}
    {V path : List String}
    (hvinv : VisitedInv g path V)
    (hnd : (keysOf acc).Nodup)
    (hval : ∀ x ∈ keysOf acc, x ≠ pkg → List.lookup x acc = some (depsOf g x))
    (hpkgval : ∀ done, List.lookup pkg acc = some done →
      done ++ [] = depsOf g pkg)
    (hpkgmem : pkg ∈ keysOf acc) :
    LoopPost g root pkg [] (keysOf acc) V path (Except.ok (acc, V)) := by
  refine ⟨fun x hx => hx, ?_, hnd, hval, ?_, hvinv, by simp⟩
  · intro x
    constructor
    · exact fun hx => Or.inl hx
    · rintro (hx | ⟨h1, h2⟩) <;> [exact hx; exact absurd h1 h2]
  · have hsome := (mem_keysOf_iff acc pkg).mp hpkgmem
    obtain ⟨done, hdone⟩ := Option.isSome_iff_exists.mp hsome
    rw [hdone]
    have := hpkgval done hdone
    rw [List.append_nil] at this
    rw [this]

/-- Combined invariant lemma for `bfsRec` and `bfsLoop`, by induction on
the fuel.  All the facts the claims need about a returned result are
collected in `RecPost`/`LoopPost`. -/
theorem specAux (g : Dict) (root : String) : ∀ f : Nat,
    (∀ pkg V path out, bfsRec g f pkg V path = some out →
      AncPath g root path pkg → VisitedInv g path V →
      RecPost g root pkg V path out) ∧
    (∀ ds pkg acc V path0 out,
      bfsLoop g f ds pkg acc V (path0 ++ [pkg]) = some out →
      AncPath g root path0 pkg →
      (∀ d ∈ ds, d ∈ depsOf g pkg) →
      VisitedInv g (path0 ++ [pkg]) V →
      pkg ∈ V →
      (keysOf acc).Nodup →
      (∀ x ∈ keysOf acc, x ∈ V) →
      (∀ x ∈ keysOf acc, x ≠ pkg → List.lookup x acc = some (depsOf g x)) →
      (∀ done, List.lookup pkg acc = some done → done ++ ds = depsOf g pkg) →
      pkg ∈ keysOf acc →
      LoopPost g root pkg ds (keysOf acc) V (path0 ++ [pkg]) out) := by
  intro f
  induction f with
  | zero =>
    constructor
    · intro pkg V path out h
      simp [bfsRec] at h
    · intro ds pkg acc V path0 out h hanc hds hvinv hpkgV hnd haccV hval
        hpkgval hpkgmem
      cases ds with
      | nil =>
        simp only [bfsLoop, bfsLoopF] at h
        injection h with h
        subst h
        exact loopPost_nil hvinv hnd hval hpkgval hpkgmem
      | cons dep ds2 =>
        simp [bfsLoop, bfsLoopF, bfsRec] at h
  | succ f ih =>
    obtain ⟨ihrec, ihloop⟩ := ih
    have recS : ∀ pkg V path out, bfsRec g (f + 1) pkg V path = some out →
        AncPath g root path pkg → VisitedInv g path V →
        RecPost g root pkg V path out := by
      intro pkg V path out h hanc hvinv
      rw [bfsRec] at h
      by_cases hp : pkg ∈ path
      · rw [if_pos hp] at h
        injection h with h; subst h
        exact ⟨hp, hanc⟩
      · rw [if_neg hp] at h
        by_cases hv : pkg ∈ V
        · rw [if_pos hv] at h
          injection h with h; subst h
          refine ⟨fun x hx => hx, hv, ?_, by simp [keysOf_nil], ?_, hvinv⟩
          · intro x
            constructor
            · intro hx; simp [keysOf_nil] at hx
            · rintro ⟨h1, h2⟩; exact absurd h1 h2
          · intro x hx; simp [keysOf_nil] at hx
        · rw [if_neg hv] at h
          cases hlk : List.lookup pkg g with
          | none =>
            rw [hlk] at h
            injection h with h; subst h
            have hdeps : depsOf g pkg = [] := by rw [depsOf, hlk]; rfl
            refine ⟨fun x hx => List.mem_cons_of_mem _ hx,
              List.mem_cons_self _ _, ?_, by simp [keysOf], ?_, ?_⟩
            · intro x
              constructor
              · intro hx
                have hxe : x = pkg := by simpa [keysOf] using hx
                subst hxe
                exact ⟨List.mem_cons_self _ _, hv⟩
              · rintro ⟨h1, h2⟩
                rcases List.mem_cons.mp h1 with h1 | h1
                · subst h1; simp [keysOf]
                · exact absurd h1 h2
            · intro x hx
              have hxe : x = pkg := by simpa [keysOf] using hx
              subst hxe
              rw [lookup_cons, if_pos rfl, hdeps]
            · intro x hx
              rcases List.mem_cons.mp hx with rfl | hx
              · right; rw [hdeps]; intro d hd; simp at hd
              · rcases hvinv x hx with h1 | h1
                · exact Or.inl h1
                · exact Or.inr (fun d hd => List.mem_cons_of_mem _ (h1 d hd))
          | some deps =>
            rw [hlk] at h
            have hdeps : depsOf g pkg = deps := by rw [depsOf, hlk]; rfl
            have hvinv2 : VisitedInv g (path ++ [pkg]) (pkg :: V) := by
              intro x hx
              rcases List.mem_cons.mp hx with rfl | hx
              · exact Or.inl (by simp)
              · rcases hvinv x hx with h1 | h1
                · exact Or.inl (List.mem_append_left _ h1)
                · exact Or.inr (fun d hd => List.mem_cons_of_mem _ (h1 d hd))
            have hloopPost := ihloop deps pkg [(pkg, [])] (pkg :: V) path out h
              hanc (by intro d hd; rw [hdeps]; exact hd) hvinv2
              (List.mem_cons_self _ _) (by simp [keysOf])
              (by intro x hx
                  have hxe : x = pkg := by simpa [keysOf] using hx
                  subst hxe; exact List.mem_cons_self _ _)
              (by intro x hx hne
                  have hxe : x = pkg := by simpa [keysOf] using hx
                  exact absurd hxe hne)
              (by intro done hd
                  rw [lookup_cons, if_pos rfl] at hd
                  injection hd with hd
                  subst hd
                  rw [List.nil_append, hdeps])
              (by simp [keysOf])
            cases out with
            | error e => exact hloopPost
            | ok p =>
              obtain ⟨res, V2⟩ := p
              obtain ⟨hVV2, hiff, hnd2, hvalne, hpkgval2, hvinv3, hdsV2⟩ :=
                hloopPost
              refine ⟨fun x hx => hVV2 x (List.mem_cons_of_mem _ hx),
                hVV2 pkg (List.mem_cons_self _ _), ?_, hnd2, ?_, ?_⟩
              · intro x
                rw [hiff x]
                constructor
                · rintro (hx | ⟨h1, h2⟩)
                  · have hxe : x = pkg := by simpa [keysOf] using hx
                    subst hxe
                    exact ⟨hVV2 _ (List.mem_cons_self _ _), hv⟩
                  · exact ⟨h1, fun hc => h2 (List.mem_cons_of_mem _ hc)⟩
                · rintro ⟨h1, h2⟩
                  by_cases hxp : x = pkg
                  · subst hxp; exact Or.inl (by simp [keysOf])
                  · refine Or.inr ⟨h1, ?_⟩
                    intro hc
                    rcases List.mem_cons.mp hc with hc | hc
                    · exact hxp hc
                    · exact h2 hc
              · intro x hx
                by_cases hxp : x = pkg
                · subst hxp; exact hpkgval2
                · exact hvalne x hx hxp
              · intro x hx
                rcases hvinv3 x hx with h1 | h1
                · rcases List.mem_append.mp h1 with h1 | h1
                  · exact Or.inl h1
                  · rw [List.mem_singleton] at h1
                    subst h1
                    right
                    intro d hd
                    rw [hdeps] at hd
                    exact hdsV2 d hd
                · exact Or.inr h1
    refine ⟨recS, ?_⟩
    intro ds
    induction ds with
    | nil =>
      intro pkg acc V path0 out h hanc hds hvinv hpkgV hnd haccV hval
        hpkgval hpkgmem
      simp only [bfsLoop, bfsLoopF] at h
      injection h with h; subst h
      exact loopPost_nil hvinv hnd hval hpkgval hpkgmem
    | cons dep ds2 ihds =>
      intro pkg acc V path0 out h hanc hds hvinv hpkgV hnd haccV hval
        hpkgval hpkgmem
      simp only [bfsLoop] at h
      rw [bfsLoopF] at h
      cases hrec : bfsRec g (f + 1) dep V (path0 ++ [pkg]) with
      | none => rw [hrec] at h; simp at h
      | some r =>
        rw [hrec] at h
        cases r with
        | error e =>
          injection h with h; subst h
          exact recS dep V (path0 ++ [pkg]) (Except.error e) hrec
            (AncPath.snoc hanc (hds dep (List.mem_cons_self _ _))) hvinv
        | ok p =>
          obtain ⟨sub, V2⟩ := p
          have hpost := recS dep V (path0 ++ [pkg]) (Except.ok (sub, V2)) hrec
            (AncPath.snoc hanc (hds dep (List.mem_cons_self _ _))) hvinv
          obtain ⟨hVV2, hdepV2, hiffsub, hndsub, hvalsub, hvinv2⟩ := hpost
          have hkeysacc1 :
              keysOf (dictSet acc pkg (dictGet acc pkg ++ [dep])) =
                keysOf acc := by
            rw [keysOf_dictSet, if_pos ((mem_keysOf_iff acc pkg).mp hpkgmem)]
          have hnd1 :
              (keysOf (dictSet acc pkg (dictGet acc pkg ++ [dep]))).Nodup := by
            rw [hkeysacc1]; exact hnd
          have hdisj : ∀ k ∈ keysOf sub,
              k ∉ keysOf (dictSet acc pkg (dictGet acc pkg ++ [dep])) := by
            intro k hk
            rw [hkeysacc1]
            intro hc
            exact ((hiffsub k).mp hk).2 (haccV k hc)
          have hkeys2 :
              keysOf (dictUpdate (dictSet acc pkg (dictGet acc pkg ++ [dep])) sub)
                = keysOf (dictSet acc pkg (dictGet acc pkg ++ [dep])) ++
                  keysOf sub :=
            keysOf_dictUpdate sub _ hndsub hdisj
          have hnd2 :
              (keysOf (dictUpdate (dictSet acc pkg (dictGet acc pkg ++ [dep]))
                sub)).Nodup := by
            rw [hkeys2, List.nodup_append]
            exact ⟨hnd1, hndsub, fun a ha hb => hdisj a hb ha⟩
          have hlk2 : ∀ x,
              List.lookup x
                  (dictUpdate (dictSet acc pkg (dictGet acc pkg ++ [dep])) sub) =
                if x ∈ keysOf sub then List.lookup x sub
                else List.lookup x (dictSet acc pkg (dictGet acc pkg ++ [dep])) :=
            fun x => lookup_dictUpdate sub _ hndsub x
          have hlkacc1 : ∀ x,
              List.lookup x (dictSet acc pkg (dictGet acc pkg ++ [dep])) =
                if x = pkg then some (dictGet acc pkg ++ [dep])
                else List.lookup x acc :=
            fun x => lookup_dictSet acc pkg _ x
          have hpkgnot : pkg ∉ keysOf sub :=
            fun hc => ((hiffsub pkg).mp hc).2 hpkgV
          have hres := ihds pkg
            (dictUpdate (dictSet acc pkg (dictGet acc pkg ++ [dep])) sub)
            V2 path0 out h hanc
            (fun d hd => hds d (List.mem_cons_of_mem _ hd))
            hvinv2 (hVV2 pkg hpkgV) hnd2
            (by intro x hx
                rw [hkeys2] at hx
                rcases List.mem_append.mp hx with hx | hx
                · rw [hkeysacc1] at hx
                  exact hVV2 x (haccV x hx)
                · exact ((hiffsub x).mp hx).1)
            (by intro x hx hne
                rw [hlk2 x]
                by_cases hxs : x ∈ keysOf sub
                · rw [if_pos hxs]; exact hvalsub x hxs
                · rw [if_neg hxs]
                  rw [hkeys2] at hx
                  rcases List.mem_append.mp hx with hx | hx
                  · rw [hlkacc1 x, if_neg hne]
                    rw [hkeysacc1] at hx
                    exact hval x hx hne
                  · exact absurd hx hxs)
            (by intro done hdone
                rw [hlk2 pkg, if_neg hpkgnot, hlkacc1 pkg, if_pos rfl] at hdone
                injection hdone with hdone
                subst hdone
                obtain ⟨d0, hd0⟩ := Option.isSome_iff_exists.mp
                  ((mem_keysOf_iff acc pkg).mp hpkgmem)
                have hgd : dictGet acc pkg = d0 := by rw [dictGet, hd0]; rfl
                have hfull := hpkgval d0 hd0
                rw [hgd, List.append_assoc, List.singleton_append]
                exact hfull)
            (by rw [hkeys2, hkeysacc1]
                exact List.mem_append_left _ hpkgmem)
          cases out with
          | error e => exact hres
          | ok p2 =>
            obtain ⟨res, V3⟩ := p2
            obtain ⟨hV2V3, hiff3, hnd3, hvalne3, hpkg3, hvinv4, hds3⟩ := hres
            refine ⟨fun x hx => hV2V3 x (hVV2 x hx), ?_, hnd3, hvalne3,
              hpkg3, hvinv4, ?_⟩
            · intro x
              rw [hiff3 x, hkeys2, hkeysacc1]
              constructor
              · rintro (hx | ⟨h1, h2⟩)
                · rcases List.mem_append.mp hx with hx | hx
                  · exact Or.inl hx
                  · have hh := (hiffsub x).mp hx
                    exact Or.inr ⟨hV2V3 x hh.1, hh.2⟩
                · exact Or.inr ⟨h1, fun hc => h2 (hVV2 x hc)⟩
              · rintro (hx | ⟨h1, h2⟩)
                · exact Or.inl (List.mem_append_left _ hx)
                · by_cases hx2 : x ∈ V2
                  · exact Or.inl
                      (List.mem_append_right _ ((hiffsub x).mpr ⟨hx2, h2⟩))
                  · exact Or.inr ⟨h1, hx2⟩
            · intro d hd
              rcases List.mem_cons.mp hd with rfl | hd
              · exact hV2V3 d hdepV2
              · exact hds3 d hd

/-- A duplicate-free list of keys of `g` is no longer than `g`. -/
theorem path_length_le {g : Dict} {path : List String} (hnd : path.Nodup)
    (hsub : ∀ x ∈ path, x ∈ keysOf g) : path.length ≤ g.length := by
  have h1 : path.length ≤ (keysOf g).length :=
    (List.subperm_of_subset hnd (fun x hx => hsub x hx)).length_le
  simpa [keysOf] using h1

/-- Fuel sufficiency: with `g.length + 2` units of fuel the walk never
runs out, because the ancestor path is duplicate-free and made of keys
of `g`, so the recursion depth is bounded. -/
theorem termAux (g : Dict) : ∀ f : Nat,
    (∀ pkg V path, path.Nodup → (∀ x ∈ path, x ∈ keysOf g) →
      g.length + 2 ≤ f + path.length → bfsRec g f pkg V path ≠ none) ∧
    (∀ ds pkg acc V path, path.Nodup → (∀ x ∈ path, x ∈ keysOf g) →
      g.length + 2 ≤ f + path.length → bfsLoop g f ds pkg acc V path ≠ none) := by
  intro f
  induction f with
  | zero =>
    constructor
    · intro pkg V path hnd hsub hlen
      have := path_length_le hnd hsub
      omega
    · intro ds pkg acc V path hnd hsub hlen
      have := path_length_le hnd hsub
      omega
  | succ f ih =>
    obtain ⟨ihrec, ihloop⟩ := ih
    have recS : ∀ pkg V path, path.Nodup → (∀ x ∈ path, x ∈ keysOf g) →
        g.length + 2 ≤ (f + 1) + path.length →
        bfsRec g (f + 1) pkg V path ≠ none := by
      intro pkg V path hnd hsub hlen
      rw [bfsRec]
      by_cases hp : pkg ∈ path
      · rw [if_pos hp]; simp
      · rw [if_neg hp]
        by_cases hv : pkg ∈ V
        · rw [if_pos hv]; simp
        · rw [if_neg hv]
          cases hlk : List.lookup pkg g with
          | none => simp
          | some deps =>
            apply ihloop
            · exact List.Nodup.append hnd (List.nodup_singleton _)
                (fun a ha hb => hp ((List.mem_singleton.mp hb) ▸ ha))
            · intro x hx
              rcases List.mem_append.mp hx with hx | hx
              · exact hsub x hx
              · rw [List.mem_singleton] at hx; subst hx
                rw [mem_keysOf_iff, hlk]; rfl
            · rw [List.length_append, List.length_singleton]
              omega
    refine ⟨recS, ?_⟩
    intro ds
    induction ds with
    | nil =>
      intro pkg acc V path hnd hsub hlen
      simp [bfsLoop, bfsLoopF]
    | cons dep ds2 ihds =>
      intro pkg acc V path hnd hsub hlen
      simp only [bfsLoop]
      rw [bfsLoopF]
      cases hrec : bfsRec g (f + 1) dep V path with
      | none => exact absurd hrec (recS dep V path hnd hsub hlen)
      | some r =>
        cases r with
        | error e => simp
        | ok p =>
          obtain ⟨sub, V2⟩ := p
          exact ihds pkg _ V2 path hnd hsub hlen

/-! ## Theorems for claims C1, C2, C9 -/

/-- Claim C1: for every acyclic dependency graph and every root present
in it, `get_complete_dependencies` terminates and returns a closure graph
containing every node reachable from the root; each node's recorded
direct-dependency list is exactly the source graph's list for it, and a
node absent from the graph source appears with an empty list. -/
theorem resolve_acyclic_complete (g : Dict) (root : String)
    (hacyc : Acyclic g) (hroot : root ∈ keysOf g) :
    ∃ res : Dict, get_complete_dependencies g root = some (Except.ok res) ∧
      (∀ x, Reaches g root x → x ∈ keysOf res) ∧
      (∀ x ∈ keysOf res, List.lookup x res = some (depsOf g x)) ∧
      (∀ x ∈ keysOf res, x ∉ keysOf g → List.lookup x res = some []) := by
  have hterm := (termAux g (g.length + 2)).1 root [] [] (by simp)
    (by intro x hx; simp at hx) (by simp)
  cases hout : bfsRec g (g.length + 2) root [] [] with
  | none => exact absurd hout hterm
  | some out =>
    have hspec := (specAux g root (g.length + 2)).1 root [] [] out hout
      AncPath.nil (by intro x hx; simp at hx)
    cases out with
    | error e =>
      obtain ⟨hmem, hanc⟩ := hspec
      exact absurd (ancPath_reachesPlus hanc e.package hmem)
        (hacyc e.package)
    | ok p =>
      obtain ⟨res, Vf⟩ := p
      obtain ⟨_, hrootVf, hiff, hndres, hval, hvinv⟩ := hspec
      refine ⟨res, ?_, ?_, hval, ?_⟩
      · rw [get_complete_dependencies, hout]; rfl
      · intro x hre
        have hVf : x ∈ Vf := by
          induction hre with
          | refl => exact hrootVf
          | tail hr hd ihr =>
            rcases hvinv _ ihr with h1 | h1
            · simp at h1
            · exact h1 _ hd
        exact (hiff x).mpr ⟨hVf, by simp⟩
      · intro x hx hxg
        have h1 := hval x hx
        have h2 : depsOf g x = [] := by
          rw [mem_keysOf_iff] at hxg
          rw [depsOf]
          cases hlx : List.lookup x g with
          | none => rfl
          | some l => rw [hlx] at hxg; simp at hxg
        rw [h1, h2]
  
/-- Witness for C1 at the one-node acyclic graph `[("A", [])]`. -/
theorem resolve_acyclic_complete_witness :
    Acyclic [("A", ([] : List String))] ∧
    "A" ∈ keysOf [("A", ([] : List String))] ∧
    ∃ res : Dict,
      get_complete_dependencies [("A", ([] : List String))] "A" =
        some (Except.ok res) ∧
      (∀ x, Reaches [("A", ([] : List String))] "A" x → x ∈ keysOf res) ∧
      (∀ x ∈ keysOf res,
        List.lookup x res = some (depsOf [("A", ([] : List String))] x)) ∧
      (∀ x ∈ keysOf res, x ∉ keysOf [("A", ([] : List String))] →
        List.lookup x res = some []) := by
  have hdeps : ∀ x, depsOf [("A", ([] : List String))] x = [] := by
    intro x
    rw [depsOf, lookup_cons]
    by_cases h : x = "A"
    · rw [if_pos h]; rfl
    · rw [if_neg h]; rfl
  have hacyc : Acyclic [("A", ([] : List String))] := by
    rintro x ⟨z, hz, _⟩
    rw [hdeps x] at hz
    simp at hz
  exact ⟨hacyc, by simp [keysOf],
    resolve_acyclic_complete _ _ hacyc (by simp [keysOf])⟩

/-- Claim C2 (counterexample): on the graph `{A:[B], B:[C], C:[B]}` with
root `A`, the raised error is `("B", ["A","B","C"])` and its message is
`"Circular dependency: A -> B -> C -> B"` — the appended repeated package
is `B`, not the chain's first element `A`, so the claimed rendering
`"p1 -> p2 -> ... -> pk -> p1"` does not hold. -/
theorem resolve_cycle_message_counterexample :
    get_complete_dependencies [("A", ["B"]), ("B", ["C"]), ("C", ["B"])] "A" =
      some (Except.error ⟨"B", ["A", "B", "C"]⟩) ∧
    CircularDependencyError.message ⟨"B", ["A", "B", "C"]⟩ =
      "Circular dependency: A -> B -> C -> B" ∧
    "Circular dependency: A -> B -> C -> B" ≠
      "Circular dependency: A -> B -> C -> A" :=
  ⟨rfl, rfl, by decide⟩

/-- Claim C2 (amended): `get_complete_dependencies` raises
`CircularDependencyError` exactly when the walk reaches a node already on
the current ancestor path: every raised error carries a package that
repeats an element of its path, the path being the ancestor chain from
the root, and the message renders the chain joined by `" -> "` followed
by the repeated package (not necessarily the chain's first element).  In
particular on `{X:[Y], Y:[Z], Z:[X]}` with root `X` it raises
`("X", ["X","Y","Z"])` with message
`"Circular dependency: X -> Y -> Z -> X"`. -/
theorem resolve_cycle_error_spec :
    (∀ (g : Dict) (root : String) (e : CircularDependencyError),
      get_complete_dependencies g root = some (Except.error e) →
      e.package ∈ e.path ∧ AncPath g root e.path e.package ∧
      e.message = "Circular dependency: " ++
        joinWith " -> " (e.path ++ [e.package])) ∧
    get_complete_dependencies cyclic_dependencies "X" =
      some (Except.error ⟨"X", ["X", "Y", "Z"]⟩) ∧
    CircularDependencyError.message ⟨"X", ["X", "Y", "Z"]⟩ =
      "Circular dependency: X -> Y -> Z -> X" := by
  refine ⟨?_, rfl, rfl⟩
  intro g root e h
  rw [get_complete_dependencies] at h
  cases hrec : bfsRec g (g.length + 2) root [] [] with
  | none => rw [hrec] at h; simp at h
  | some r =>
    rw [hrec] at h
    cases r with
    | ok p => simp [Except.map] at h
    | error e2 =>
      have he : e2 = e := by simpa [Except.map] using h
      subst he
      have hspec := (specAux g root (g.length + 2)).1 root [] []
        (Except.error e2) hrec AncPath.nil (by intro x hx; simp at hx)
      exact ⟨hspec.1, hspec.2, rfl⟩

/-- Witness for the amended C2 on the graph `{A:[B], B:[C], C:[B]}`. -/
theorem resolve_cycle_error_spec_witness :
    "B" ∈ ["A", "B", "C"] ∧
    AncPath [("A", ["B"]), ("B", ["C"]), ("C", ["B"])] "A"
      ["A", "B", "C"] "B" ∧
    CircularDependencyError.message ⟨"B", ["A", "B", "C"]⟩ =
      "Circular dependency: " ++
        joinWith " -> " (["A", "B", "C"] ++ ["B"]) :=
  resolve_cycle_error_spec.1 [("A", ["B"]), ("B", ["C"]), ("C", ["B"])] "A"
    ⟨"B", ["A", "B", "C"]⟩ rfl

/-- Claim C9: whenever `get_complete_dependencies` returns without error,
the returned closure is closed: the root is a key of the result and every
identifier appearing in any recorded dependency list is a key of the
result. -/
theorem resolve_result_closed (g : Dict) (root : String) (res : Dict)
    (h : get_complete_dependencies g root = some (Except.ok res)) :
    root ∈ keysOf res ∧
      ∀ p l, (p, l) ∈ res → ∀ d ∈ l, d ∈ keysOf res := by
  rw [get_complete_dependencies] at h
  cases hrec : bfsRec g (g.length + 2) root [] [] with
  | none => rw [hrec] at h; simp at h
  | some r =>
    rw [hrec] at h
    cases r with
    | error e => simp [Except.map] at h
    | ok p =>
      obtain ⟨res2, Vf⟩ := p
      have hres : res2 = res := by simpa [Except.map] using h
      subst hres
      have hspec := (specAux g root (g.length + 2)).1 root [] []
        (Except.ok (res2, Vf)) hrec AncPath.nil (by intro x hx; simp at hx)
      obtain ⟨_, hrootVf, hiff, hnd, hval, hvinv⟩ := hspec
      constructor
      · exact (hiff root).mpr ⟨hrootVf, by simp⟩
      · intro p l hpl d hd
        have hpmem : p ∈ keysOf res2 := List.mem_map.mpr ⟨(p, l), hpl, rfl⟩
        have hlook := mem_lookup_of_nodup hnd hpl
        have hl : l = depsOf g p := by
          have hv2 := hval p hpmem
          rw [hlook] at hv2
          injection hv2
        have hpVf : p ∈ Vf := ((hiff p).mp hpmem).1
        rcases hvinv p hpVf with h1 | h1
        · simp at h1
        · exact (hiff d).mpr ⟨h1 d (hl ▸ hd), by simp⟩

/-- Witness for C9 at the graph `[("A", ["B"]), ("B", [])]`. -/
theorem resolve_result_closed_witness :
    get_complete_dependencies [("A", ["B"]), ("B", [])] "A" =
      some (Except.ok [("A", ["B"]), ("B", [])]) ∧
    ("A" ∈ keysOf [("A", ["B"]), ("B", ([] : List String))] ∧
      ∀ p l, (p, l) ∈ [("A", ["B"]), ("B", ([] : List String))] →
        ∀ d ∈ l, d ∈ keysOf [("A", ["B"]), ("B", ([] : List String))]) :=
  ⟨rfl, resolve_result_closed [("A", ["B"]), ("B", [])] "A"
    [("A", ["B"]), ("B", [])] rfl⟩

/-! ## Correctness of `get_all_transitive_deps` (claim C4) -/

theorem unvisitedEdges_le_cons (c : String) (v : List String) :
    ∀ g : Dict, unvisitedEdges (c :: v) g ≤ unvisitedEdges v g := by
  intro g
  induction g with
  | nil => simp [unvisitedEdges]
  | cons kv rest ih =>
    obtain ⟨k, ds⟩ := kv
    rw [unvisitedEdges, unvisitedEdges]
    by_cases h : k ∈ v
    · rw [if_pos h, if_pos (List.mem_cons_of_mem _ h)]
      omega
    · by_cases h2 : k ∈ c :: v
      · rw [if_pos h2, if_neg h]; omega
      · rw [if_neg h2, if_neg h]; omega

theorem unvisitedEdges_lookup (current : String) (v : List String)
    (hcv : current ∉ v) :
    ∀ (g : Dict) (deps : List String), List.lookup current g = some deps →
      deps.length + unvisitedEdges (current :: v) g ≤ unvisitedEdges v g := by
  intro g
  induction g with
  | nil => intro deps h; simp [lookup_nil] at h
  | cons kv rest ih =>
    intro deps h
    obtain ⟨k, ds⟩ := kv
    rw [lookup_cons] at h
    rw [unvisitedEdges, unvisitedEdges]
    by_cases hk : current = k
    · rw [if_pos hk] at h
      injection h with h
      subst h
      subst hk
      rw [if_neg hcv, if_pos (List.mem_cons_self _ _)]
      have := unvisitedEdges_le_cons current v rest
      omega
    · rw [if_neg hk] at h
      have := ih deps h
      by_cases hkv : k ∈ v
      · rw [if_pos hkv, if_pos (List.mem_cons_of_mem _ hkv)]
        omega
      · by_cases hk2 : k ∈ current :: v
        · rw [if_pos hk2, if_neg hkv]; omega
        · rw [if_neg hk2, if_neg hkv]; omega

theorem scanDeps_queue_len (visited : List String) :
    ∀ (deps acc queue : List String),
      (scanDeps visited deps (acc, queue)).2.length ≤
        queue.length + deps.length := by
  intro deps
  induction deps with
  | nil => intro acc queue; simp [scanDeps]
  | cons dep rest ih =>
    intro acc queue
    rw [scanDeps]
    by_cases h : dep ∈ visited
    · rw [if_pos h]
      have := ih acc queue
      simp only [List.length_cons]
      omega
    · rw [if_neg h]
      have := ih (addSet acc dep) (queue ++ [dep])
      simp only [List.length_append, List.length_singleton, List.length_nil,
        List.length_cons] at this ⊢
      omega

theorem scanDeps_mem (visited : List String) :
    ∀ (deps acc queue : List String),
      (∀ x, x ∈ (scanDeps visited deps (acc, queue)).1 ↔
        x ∈ acc ∨ (x ∈ deps ∧ x ∉ visited)) ∧
      (∀ x, x ∈ (scanDeps visited deps (acc, queue)).2 ↔
        x ∈ queue ∨ (x ∈ deps ∧ x ∉ visited)) := by
  intro deps
  induction deps with
  | nil => intro acc queue; constructor <;> intro x <;> simp [scanDeps]
  | cons dep rest ih =>
    intro acc queue
    rw [scanDeps]
    by_cases h : dep ∈ visited
    · rw [if_pos h]
      obtain ⟨h1, h2⟩ := ih acc queue
      constructor
      · intro x
        rw [h1 x, List.mem_cons]
        by_cases hxd : x = dep
        · subst hxd; simp [h]
        · simp [hxd]
      · intro x
        rw [h2 x, List.mem_cons]
        by_cases hxd : x = dep
        · subst hxd; simp [h]
        · simp [hxd]
    · rw [if_neg h]
      obtain ⟨h1, h2⟩ := ih (addSet acc dep) (queue ++ [dep])
      constructor
      · intro x
        rw [h1 x, mem_addSet, List.mem_cons]
        by_cases hxd : x = dep
        · subst hxd; simp [h]
        · simp [hxd]
      · intro x
        rw [h2 x, List.mem_append, List.mem_singleton, List.mem_cons]
        by_cases hxd : x = dep
        · subst hxd; simp [h]
        · simp [hxd]

/-- Fuel sufficiency for the breadth-first loop: the remaining iterations
are bounded by the queue length plus the unvisited edge count. -/
theorem transLoop_term (g : Dict) :
    ∀ (f : Nat) (queue visited allDeps : List String),
      queue.length + unvisitedEdges visited g ≤ f →
      transLoop g f queue visited allDeps ≠ none := by
  intro f
  induction f with
  | zero =>
    intro queue visited allDeps hle
    cases queue with
    | nil => simp [transLoop]
    | cons c q => simp at hle
  | succ f ih =>
    intro queue visited allDeps hle
    cases queue with
    | nil => simp [transLoop]
    | cons current q =>
      rw [transLoop]
      simp only [List.length_cons] at hle
      by_cases hv : current ∈ visited
      · rw [if_pos hv]
        apply ih
        omega
      · rw [if_neg hv]
        cases hlk : List.lookup current g with
        | none =>
          apply ih
          have hU := unvisitedEdges_le_cons current visited g
          omega
        | some deps =>
          apply ih
          have hq := scanDeps_queue_len (current :: visited) deps allDeps q
          have hU := unvisitedEdges_lookup current visited hv g deps hlk
          omega

/-- The result of the loop once the queue is empty. -/
theorem transLoop_final {g : Dict} {root : String}
    {visited allDeps : List String}
    (h3 : ∀ x ∈ allDeps, Reaches g root x ∧ x ≠ root)
    (h4 : ∀ x ∈ visited, ∀ d ∈ depsOf g x, d ∈ visited)
    (h5 : root ∈ visited)
    (h6 : ∀ x ∈ visited, x = root ∨ x ∈ allDeps) :
    ∀ x, x ∈ allDeps ↔ (Reaches g root x ∧ x ≠ root) := by
  intro x
  constructor
  · exact h3 x
  · rintro ⟨hre, hxr⟩
    have hall : ∀ y, Reaches g root y → y ∈ visited := by
      intro y hy
      induction hy with
      | refl => exact h5
      | tail hr hd ihr => exact h4 _ ihr _ hd
    rcases h6 x (hall x hre) with h | h
    · exact absurd h hxr
    · exact h

/-- Invariant preservation for the breadth-first loop of
`get_all_transitive_deps`. -/
theorem transLoop_correct (g : Dict) (root : String) :
    ∀ (f : Nat) (queue visited allDeps result : List String),
      transLoop g f queue visited allDeps = some result →
      (∀ x ∈ visited, Reaches g root x) →
      (∀ x ∈ queue, Reaches g root x) →
      (∀ x ∈ allDeps, Reaches g root x ∧ x ≠ root) →
      (∀ x ∈ visited, ∀ d ∈ depsOf g x, d ∈ visited ∨ d ∈ queue) →
      (root ∈ visited ∨ (visited = [] ∧ queue = [root] ∧ allDeps = [])) →
      (∀ x ∈ visited, x = root ∨ x ∈ allDeps) →
      (∀ x ∈ queue, x = root ∨ x ∈ allDeps) →
      (∀ x, x ∈ result ↔ (Reaches g root x ∧ x ≠ root)) := by
  intro f
  induction f with
  | zero =>
    intro queue visited allDeps result h h1 h2 h3 h4 h5 h6 h7
    cases queue with
    | nil =>
      simp only [transLoop] at h
      injection h with h; subst h
      apply transLoop_final h3
      · intro x hx d hd
        rcases h4 x hx d hd with hh | hh
        · exact hh
        · simp at hh
      · rcases h5 with hh | ⟨_, hh, _⟩
        · exact hh
        · simp at hh
      · exact h6
    | cons c q => simp [transLoop] at h
  | succ f ih =>
    intro queue visited allDeps result h h1 h2 h3 h4 h5 h6 h7
    cases queue with
    | nil =>
      simp only [transLoop] at h
      injection h with h; subst h
      apply transLoop_final h3
      · intro x hx d hd
        rcases h4 x hx d hd with hh | hh
        · exact hh
        · simp at hh
      · rcases h5 with hh | ⟨_, hh, _⟩
        · exact hh
        · simp at hh
      · exact h6
    | cons current q =>
      rw [transLoop] at h
      by_cases hv : current ∈ visited
      · rw [if_pos hv] at h
        refine ih q visited allDeps result h h1
          (fun x hx => h2 x (List.mem_cons_of_mem _ hx)) h3 ?_ ?_ h6
          (fun x hx => h7 x (List.mem_cons_of_mem _ hx))
        · intro x hx d hd
          rcases h4 x hx d hd with hh | hh
          · exact Or.inl hh
          · rcases List.mem_cons.mp hh with rfl | hh
            · exact Or.inl hv
            · exact Or.inr hh
        · rcases h5 with hh | ⟨he, _, _⟩
          · exact Or.inl hh
          · rw [he] at hv; simp at hv
      · rw [if_neg hv] at h
        have hcur_reach : Reaches g root current :=
          h2 current (List.mem_cons_self _ _)
        have hrootvis1 : root ∈ current :: visited := by
          rcases h5 with hh | ⟨he, hq, ha⟩
          · exact List.mem_cons_of_mem _ hh
          · have hcr : current = root := by
              injection hq with hq1 hq2
            rw [← hcr]
            exact List.mem_cons_self _ _
        cases hlk : List.lookup current g with
        | none =>
          rw [hlk] at h
          refine ih q (current :: visited) allDeps result h ?_
            (fun x hx => h2 x (List.mem_cons_of_mem _ hx)) h3 ?_
            (Or.inl hrootvis1) ?_
            (fun x hx => h7 x (List.mem_cons_of_mem _ hx))
          · intro x hx
            rcases List.mem_cons.mp hx with rfl | hx
            · exact hcur_reach
            · exact h1 x hx
          · intro x hx d hd
            rcases List.mem_cons.mp hx with rfl | hx
            · rw [depsOf, hlk] at hd; simp at hd
            · rcases h4 x hx d hd with hh | hh
              · exact Or.inl (List.mem_cons_of_mem _ hh)
              · rcases List.mem_cons.mp hh with rfl | hh
                · exact Or.inl (List.mem_cons_self _ _)
                · exact Or.inr hh
          · intro x hx
            rcases List.mem_cons.mp hx with rfl | hx
            · exact h7 x (List.mem_cons_self _ _)
            · exact h6 x hx
        | some deps =>
          rw [hlk] at h
          obtain ⟨hsa, hsq⟩ := scanDeps_mem (current :: visited) deps allDeps q
          have hdeps : depsOf g current = deps := by rw [depsOf, hlk]; rfl
          refine ih _ (current :: visited) _ result h ?_ ?_ ?_ ?_
            (Or.inl hrootvis1) ?_ ?_
          · intro x hx
            rcases List.mem_cons.mp hx with rfl | hx
            · exact hcur_reach
            · exact h1 x hx
          · intro x hx
            rcases (hsq x).mp hx with hx | ⟨hx1, _⟩
            · exact h2 x (List.mem_cons_of_mem _ hx)
            · exact hcur_reach.tail (hdeps ▸ hx1)
          · intro x hx
            rcases (hsa x).mp hx with hx | ⟨hx1, hx2⟩
            · exact h3 x hx
            · exact ⟨hcur_reach.tail (hdeps ▸ hx1),
                fun hc => hx2 (hc ▸ hrootvis1)⟩
          · intro x hx d hd
            rcases List.mem_cons.mp hx with rfl | hx
            · rw [hdeps] at hd
              by_cases hdv : d ∈ x :: visited
              · exact Or.inl hdv
              · exact Or.inr ((hsq d).mpr (Or.inr ⟨hd, hdv⟩))
            · rcases h4 x hx d hd with hh | hh
              · exact Or.inl (List.mem_cons_of_mem _ hh)
              · rcases List.mem_cons.mp hh with rfl | hh
                · exact Or.inl (List.mem_cons_self _ _)
                · exact Or.inr ((hsq d).mpr (Or.inl hh))
          · intro x hx
            rcases List.mem_cons.mp hx with rfl | hx
            · rcases h7 x (List.mem_cons_self _ _) with hh | hh
              · exact Or.inl hh
              · exact Or.inr ((hsa x).mpr (Or.inl hh))
            · rcases h6 x hx with hh | hh
              · exact Or.inl hh
              · exact Or.inr ((hsa x).mpr (Or.inl hh))
          · intro x hx
            rcases (hsq x).mp hx with hx | ⟨hx1, hx2⟩
            · rcases h7 x (List.mem_cons_of_mem _ hx) with hh | hh
              · exact Or.inl hh
              · exact Or.inr ((hsa x).mpr (Or.inl hh))
            · exact Or.inr ((hsa x).mpr (Or.inr ⟨hx1, hx2⟩))

/-- From an absent root nothing but the root itself is reachable. -/
theorem reaches_of_absent {g : Dict} {root : String}
    (hroot : List.lookup root g = none) :
    ∀ x, Reaches g root x → x = root := by
  intro x h
  induction h with
  | refl => rfl
  | tail hr hd ihr =>
    rw [ihr, depsOf, hroot] at hd
    simp at hd

/-- Claim C4: for every dependency graph (cyclic ones included) and every
root, `get_all_transitive_deps` terminates without raising and returns
exactly the set of nodes reachable from the root, the root itself
excluded; when the root is absent from the graph the result is empty. -/
theorem transitive_deps_spec (g : Dict) (root : String) :
    ∃ l : List String, get_all_transitive_deps g root = some l ∧
      (∀ x, x ∈ l ↔ (Reaches g root x ∧ x ≠ root)) ∧
      (root ∉ keysOf g → l = []) := by
  rw [get_all_transitive_deps]
  by_cases hroot : (List.lookup root g).isSome
  · rw [if_pos hroot]
    have hterm := transLoop_term g (graphFuel g) [root] [] []
      (by rw [graphFuel]
          simp only [List.length_singleton]
          omega)
    cases hres : transLoop g (graphFuel g) [root] [] [] with
    | none => exact absurd hres hterm
    | some l =>
      refine ⟨l, rfl, ?_,
        fun hc => absurd ((mem_keysOf_iff g root).mpr hroot) hc⟩
      exact transLoop_correct g root (graphFuel g) [root] [] [] l hres
        (by intro x hx; simp at hx)
        (by intro x hx
            rw [List.mem_singleton] at hx
            subst hx
            exact Reaches.refl _)
        (by intro x hx; simp at hx)
        (by intro x hx; simp at hx)
        (Or.inr ⟨rfl, rfl, rfl⟩)
        (by intro x hx; simp at hx)
        (by intro x hx
            rw [List.mem_singleton] at hx
            exact Or.inl hx)
  · rw [if_neg hroot]
    refine ⟨[], rfl, ?_, fun _ => rfl⟩
    intro x
    simp only [List.not_mem_nil, false_iff]
    rintro ⟨hre, hxr⟩
    exact hxr (reaches_of_absent (Option.not_isSome_iff_eq_none.mp hroot)
      x hre)

/-- Claim C8: on `test_dependencies` with root `A`,
`get_all_transitive_deps` returns exactly the eight packages
`B, C, D, E, F, G, H, I` (duplicate-free). -/
theorem transitive_deps_example :
    get_all_transitive_deps test_dependencies "A" =
      some ["B", "C", "D", "E", "F", "G", "H", "I"] ∧
    (["B", "C", "D", "E", "F", "G", "H", "I"] : List String).Nodup ∧
    (["B", "C", "D", "E", "F", "G", "H", "I"] : List String).length = 8 :=
  ⟨by decide, by decide, rfl⟩

/-! ## `get_reverse_dependencies` (claim C3) -/

theorem scanRevDeps_queue_len (root : String) (visited : List String) :
    (rdeps acc queue : List String) →
      (scanRevDeps root visited rdeps (acc, queue)).2.length ≤
        queue.length + rdeps.length := by
  intro rdeps
  induction rdeps with
  | nil => intro acc queue; simp [scanRevDeps]
  | cons rd rest ih =>
    intro acc queue
    rw [scanRevDeps]
    by_cases h : rd ∈ visited ∨ rd = root
    · rw [if_pos h]
      have := ih acc queue
      simp only [List.length_cons]
      omega
    · rw [if_neg h]
      have := ih (addSet acc rd) (queue ++ [rd])
      simp only [List.length_append, List.length_singleton, List.length_nil,
        List.length_cons] at this ⊢
      omega

theorem scanRevDeps_mem (root : String) (visited : List String) :
    ∀ (rdeps acc queue : List String),
      (∀ x, x ∈ (scanRevDeps root visited rdeps (acc, queue)).1 ↔
        x ∈ acc ∨ (x ∈ rdeps ∧ ¬(x ∈ visited ∨ x = root))) ∧
      (∀ x, x ∈ (scanRevDeps root visited rdeps (acc, queue)).2 ↔
        x ∈ queue ∨ (x ∈ rdeps ∧ ¬(x ∈ visited ∨ x = root))) := by
  intro rdeps
  induction rdeps with
  | nil => intro acc queue; constructor <;> intro x <;> simp [scanRevDeps]
  | cons rd rest ih =>
    intro acc queue
    rw [scanRevDeps]
    by_cases hc : rd ∈ visited ∨ rd = root
    · rw [if_pos hc]
      obtain ⟨h1, h2⟩ := ih acc queue
      constructor
      · intro x
        rw [h1 x, List.mem_cons]
        by_cases hxd : x = rd
        · subst hxd; simp [hc]
        · simp [hxd]
      · intro x
        rw [h2 x, List.mem_cons]
        by_cases hxd : x = rd
        · subst hxd; simp [hc]
        · simp [hxd]
    · rw [if_neg hc]
      obtain ⟨h1, h2⟩ := ih (addSet acc rd) (queue ++ [rd])
      constructor
      · intro x
        rw [h1 x, mem_addSet, List.mem_cons]
        by_cases hxd : x = rd
        · subst hxd; simp [hc]
        · simp [hxd]
      · intro x
        rw [h2 x, List.mem_append, List.mem_singleton, List.mem_cons]
        by_cases hxd : x = rd
        · subst hxd; simp [hc]
        · simp [hxd]

theorem addSet_nodup (l : List String) (x : String) (h : l.Nodup) :
    (addSet l x).Nodup := by
  rw [addSet]
  split <;> rename_i hx
  · exact h
  · exact List.Nodup.append h (List.nodup_singleton x)
      (fun a ha hb => hx ((List.mem_singleton.mp hb) ▸ ha))

theorem scanRevDeps_nodup (root : String) (visited : List String) :
    ∀ (rdeps acc queue : List String), acc.Nodup →
      (scanRevDeps root visited rdeps (acc, queue)).1.Nodup := by
  intro rdeps
  induction rdeps with
  | nil => intro acc queue h; simpa [scanRevDeps] using h
  | cons rd rest ih =>
    intro acc queue h
    rw [scanRevDeps]
    by_cases hc : rd ∈ visited ∨ rd = root
    · rw [if_pos hc]; exact ih acc queue h
    · rw [if_neg hc]; exact ih _ _ (addSet_nodup acc rd h)

/-- The reverse walk keeps its result set duplicate-free. -/
theorem revLoop_nodup (rg : Dict) (root : String) :
    ∀ (f : Nat) (queue visited acc : List String), acc.Nodup →
      ∀ l, revLoop rg root f queue visited acc = some l → l.Nodup := by
  intro f
  induction f with
  | zero =>
    intro queue visited acc hnd l h
    cases queue with
    | nil =>
      simp only [revLoop] at h
      injection h with h; subst h
      exact hnd
    | cons c q => simp [revLoop] at h
  | succ f ih =>
    intro queue visited acc hnd l h
    cases queue with
    | nil =>
      simp only [revLoop] at h
      injection h with h; subst h
      exact hnd
    | cons current q =>
      rw [revLoop] at h
      by_cases hv : current ∈ visited
      · rw [if_pos hv] at h
        exact ih q visited acc hnd l h
      · rw [if_neg hv] at h
        cases hlk : List.lookup current rg with
        | none =>
          rw [hlk] at h
          exact ih q (current :: visited) acc hnd l h
        | some rdeps =>
          rw [hlk] at h
          exact ih _ (current :: visited) _
            (scanRevDeps_nodup root (current :: visited) rdeps acc q hnd) l h

/-- Fuel sufficiency for the reverse breadth-first loop. -/
theorem revLoop_term (rg : Dict) (root : String) :
    ∀ (f : Nat) (queue visited acc : List String),
      queue.length + unvisitedEdges visited rg ≤ f →
      revLoop rg root f queue visited acc ≠ none := by
  intro f
  induction f with
  | zero =>
    intro queue visited acc hle
    cases queue with
    | nil => simp [revLoop]
    | cons c q => simp at hle
  | succ f ih =>
    intro queue visited acc hle
    cases queue with
    | nil => simp [revLoop]
    | cons current q =>
      rw [revLoop]
      simp only [List.length_cons] at hle
      by_cases hv : current ∈ visited
      · rw [if_pos hv]
        apply ih
        omega
      · rw [if_neg hv]
        cases hlk : List.lookup current rg with
        | none =>
          apply ih
          have hU := unvisitedEdges_le_cons current visited rg
          omega
        | some rdeps =>
          apply ih
          have hq := scanRevDeps_queue_len root (current :: visited) rdeps acc q
          have hU := unvisitedEdges_lookup current visited hv rg rdeps hlk
          omega

/-- Invariant preservation for the breadth-first loop of
`get_reverse_dependencies`: started from the root, it collects exactly
the nodes reachable from the root in the reverse graph, the root
excluded. -/
theorem revLoop_correct (rg : Dict) (root : String) :
    ∀ (f : Nat) (queue visited acc result : List String),
      revLoop rg root f queue visited acc = some result →
      (∀ x ∈ visited, Reaches rg root x) →
      (∀ x ∈ queue, Reaches rg root x) →
      (∀ x ∈ acc, Reaches rg root x ∧ x ≠ root) →
      (∀ x ∈ visited, ∀ d ∈ depsOf rg x, d ∈ visited ∨ d ∈ queue) →
      (root ∈ visited ∨ (visited = [] ∧ queue = [root] ∧ acc = [])) →
      (∀ x ∈ visited, x = root ∨ x ∈ acc) →
      (∀ x ∈ queue, x = root ∨ x ∈ acc) →
      (∀ x, x ∈ result ↔ (Reaches rg root x ∧ x ≠ root)) := by
  intro f
  induction f with
  | zero =>
    intro queue visited acc result h h1 h2 h3 h4 h5 h6 h7
    cases queue with
    | nil =>
      simp only [revLoop] at h
      injection h with h; subst h
      apply transLoop_final h3
      · intro x hx d hd
        rcases h4 x hx d hd with hh | hh
        · exact hh
        · simp at hh
      · rcases h5 with hh | ⟨_, hh, _⟩
        · exact hh
        · simp at hh
      · exact h6
    | cons c q => simp [revLoop] at h
  | succ f ih =>
    intro queue visited acc result h h1 h2 h3 h4 h5 h6 h7
    cases queue with
    | nil =>
      simp only [revLoop] at h
      injection h with h; subst h
      apply transLoop_final h3
      · intro x hx d hd
        rcases h4 x hx d hd with hh | hh
        · exact hh
        · simp at hh
      · rcases h5 with hh | ⟨_, hh, _⟩
        · exact hh
        · simp at hh
      · exact h6
    | cons current q =>
      rw [revLoop] at h
      by_cases hv : current ∈ visited
      · rw [if_pos hv] at h
        refine ih q visited acc result h h1
          (fun x hx => h2 x (List.mem_cons_of_mem _ hx)) h3 ?_ ?_ h6
          (fun x hx => h7 x (List.mem_cons_of_mem _ hx))
        · intro x hx d hd
          rcases h4 x hx d hd with hh | hh
          · exact Or.inl hh
          · rcases List.mem_cons.mp hh with rfl | hh
            · exact Or.inl hv
            · exact Or.inr hh
        · rcases h5 with hh | ⟨he, _, _⟩
          · exact Or.inl hh
          · rw [he] at hv; simp at hv
      · rw [if_neg hv] at h
        have hcur_reach : Reaches rg root current :=
          h2 current (List.mem_cons_self _ _)
        have hrootvis1 : root ∈ current :: visited := by
          rcases h5 with hh | ⟨he, hq, ha⟩
          · exact List.mem_cons_of_mem _ hh
          · have hcr : current = root := by
              injection hq with hq1 hq2
            rw [← hcr]
            exact List.mem_cons_self _ _
        cases hlk : List.lookup current rg with
        | none =>
          rw [hlk] at h
          refine ih q (current :: visited) acc result h ?_
            (fun x hx => h2 x (List.mem_cons_of_mem _ hx)) h3 ?_
            (Or.inl hrootvis1) ?_
            (fun x hx => h7 x (List.mem_cons_of_mem _ hx))
          · intro x hx
            rcases List.mem_cons.mp hx with rfl | hx
            · exact hcur_reach
            · exact h1 x hx
          · intro x hx d hd
            rcases List.mem_cons.mp hx with rfl | hx
            · rw [depsOf, hlk] at hd; simp at hd
            · rcases h4 x hx d hd with hh | hh
              · exact Or.inl (List.mem_cons_of_mem _ hh)
              · rcases List.mem_cons.mp hh with rfl | hh
                · exact Or.inl (List.mem_cons_self _ _)
                · exact Or.inr hh
          · intro x hx
            rcases List.mem_cons.mp hx with rfl | hx
            · exact h7 x (List.mem_cons_self _ _)
            · exact h6 x hx
        | some rdeps =>
          rw [hlk] at h
          obtain ⟨hsa, hsq⟩ := scanRevDeps_mem root (current :: visited)
            rdeps acc q
          have hdeps : depsOf rg current = rdeps := by rw [depsOf, hlk]; rfl
          refine ih _ (current :: visited) _ result h ?_ ?_ ?_ ?_
            (Or.inl hrootvis1) ?_ ?_
          · intro x hx
            rcases List.mem_cons.mp hx with rfl | hx
            · exact hcur_reach
            · exact h1 x hx
          · intro x hx
            rcases (hsq x).mp hx with hx | ⟨hx1, _⟩
            · exact h2 x (List.mem_cons_of_mem _ hx)
            · exact hcur_reach.tail (hdeps ▸ hx1)
          · intro x hx
            rcases (hsa x).mp hx with hx | ⟨hx1, hx2⟩
            · exact h3 x hx
            · exact ⟨hcur_reach.tail (hdeps ▸ hx1),
                fun hc => hx2 (Or.inr hc)⟩
          · intro x hx d hd
            rcases List.mem_cons.mp hx with rfl | hx
            · rw [hdeps] at hd
              by_cases hdv : d ∈ x :: visited
              · exact Or.inl hdv
              · have hdr : ¬(d = root) := fun hh => hdv (hh ▸ hrootvis1)
                exact Or.inr ((hsq d).mpr
                  (Or.inr ⟨hd, fun hor => hor.elim hdv hdr⟩))
            · rcases h4 x hx d hd with hh | hh
              · exact Or.inl (List.mem_cons_of_mem _ hh)
              · rcases List.mem_cons.mp hh with rfl | hh
                · exact Or.inl (List.mem_cons_self _ _)
                · exact Or.inr ((hsq d).mpr (Or.inl hh))
          · intro x hx
            rcases List.mem_cons.mp hx with rfl | hx
            · rcases h7 x (List.mem_cons_self _ _) with hh | hh
              · exact Or.inl hh
              · exact Or.inr ((hsa x).mpr (Or.inl hh))
            · rcases h6 x hx with hh | hh
              · exact Or.inl hh
              · exact Or.inr ((hsa x).mpr (Or.inl hh))
          · intro x hx
            rcases (hsq x).mp hx with hx | ⟨hx1, hx2⟩
            · rcases h7 x (List.mem_cons_of_mem _ hx) with hh | hh
              · exact Or.inl hh
              · exact Or.inr ((hsa x).mpr (Or.inl hh))
            · exact Or.inr ((hsa x).mpr (Or.inr ⟨hx1, hx2⟩))

/-- Claim C3 (counterexample): on the fixed graph with root `H`,
`get_reverse_dependencies` returns `D, E, M, B, L, A, K, J`: the set is
not `{D, E}` (it contains `M`), and it is not one-hop only — `B` is
reported although `H` is not among `B`'s direct dependencies. -/
theorem reverse_deps_counterexample :
    get_reverse_dependencies "H" =
      some ["D", "E", "M", "B", "L", "A", "K", "J"] ∧
    "M" ∈ (["D", "E", "M", "B", "L", "A", "K", "J"] : List String) ∧
    "M" ∉ (["D", "E"] : List String) ∧
    "B" ∈ (["D", "E", "M", "B", "L", "A", "K", "J"] : List String) ∧
    "H" ∉ depsOf test_dependencies "B" :=
  ⟨by decide, by decide, by decide, by decide, by decide⟩

/-- Claim C3 (amended): for every root, `get_reverse_dependencies`
terminates and returns exactly the transitive reverse dependents of the
root — the nodes reachable from it in the reverse index — excluding the
root itself even when a cycle would reintroduce it, with duplicates
collapsed, and the empty list when the root has no reverse dependents;
on the sample graph with root `H` the result set is exactly
`{D, E, M, B, L, A, K, J}`. -/
theorem reverse_deps_spec :
    (∀ pkg, ∃ l, get_reverse_dependencies pkg = some l ∧
      (∀ x, x ∈ l ↔
        (Reaches (buildReverseGraph test_dependencies) pkg x ∧ x ≠ pkg)) ∧
      l.Nodup ∧
      (pkg ∉ keysOf (buildReverseGraph test_dependencies) → l = [])) ∧
    get_reverse_dependencies "H" =
      some ["D", "E", "M", "B", "L", "A", "K", "J"] := by
  refine ⟨?_, by decide⟩
  intro pkg
  rw [get_reverse_dependencies]
  by_cases hroot :
      (List.lookup pkg (buildReverseGraph test_dependencies)).isSome
  · rw [if_pos hroot]
    have hterm := revLoop_term (buildReverseGraph test_dependencies) pkg
      (graphFuel (buildReverseGraph test_dependencies)) [pkg] [] []
      (by rw [graphFuel]
          simp only [List.length_singleton]
          omega)
    cases hres : revLoop (buildReverseGraph test_dependencies) pkg
        (graphFuel (buildReverseGraph test_dependencies)) [pkg] [] [] with
    | none => exact absurd hres hterm
    | some l =>
      refine ⟨l, rfl, ?_, ?_,
        fun hc => absurd ((mem_keysOf_iff _ pkg).mpr hroot) hc⟩
      · exact revLoop_correct _ pkg _ [pkg] [] [] l hres
          (by intro x hx; simp at hx)
          (by intro x hx
              rw [List.mem_singleton] at hx
              subst hx
              exact Reaches.refl _)
          (by intro x hx; simp at hx)
          (by intro x hx; simp at hx)
          (Or.inr ⟨rfl, rfl, rfl⟩)
          (by intro x hx; simp at hx)
          (by intro x hx
              rw [List.mem_singleton] at hx
              exact Or.inl hx)
      · exact revLoop_nodup _ pkg _ [pkg] [] [] (by simp) l hres
  · rw [if_neg hroot]
    refine ⟨[], rfl, ?_, by simp, fun _ => rfl⟩
    intro x
    simp only [List.not_mem_nil, false_iff]
    rintro ⟨hre, hxr⟩
    exact hxr (reaches_of_absent (Option.not_isSome_iff_eq_none.mp hroot)
      x hre)

/-! ## The reverse index (claim C5) -/

theorem dictGet_dictSet (rg : Dict) (k : String) (v : List String)
    (d : String) :
    dictGet (dictSet rg k v) d = if d = k then v else dictGet rg d := by
  rw [dictGet, lookup_dictSet]
  by_cases h : d = k
  · rw [if_pos h, if_pos h]; rfl
  · rw [if_neg h, if_neg h]; rfl

theorem addRevEdges_get (pkg : String) :
    ∀ (deps : List String) (rg : Dict) (d p : String),
      p ∈ dictGet (addRevEdges pkg deps rg) d ↔
        p ∈ dictGet rg d ∨ (p = pkg ∧ d ∈ deps) := by
  intro deps
  induction deps with
  | nil => intro rg d p; simp [addRevEdges]
  | cons dep rest ih =>
    intro rg d p
    rw [addRevEdges, ih, dictGet_dictSet]
    by_cases h : d = dep
    · subst h
      rw [if_pos rfl, List.mem_append, List.mem_singleton, List.mem_cons]
      tauto
    · rw [if_neg h, List.mem_cons]
      tauto

theorem buildRevAux_get :
    ∀ (g rg : Dict) (d p : String),
      p ∈ dictGet (buildRevAux g rg) d ↔
        p ∈ dictGet rg d ∨ ∃ l, (p, l) ∈ g ∧ d ∈ l := by
  intro g
  induction g with
  | nil => intro rg d p; simp [buildRevAux]
  | cons kv rest ih =>
    intro rg d p
    obtain ⟨pkg, deps⟩ := kv
    rw [buildRevAux, ih, addRevEdges_get]
    constructor
    · rintro ((hp | ⟨rfl, hd⟩) | ⟨l, hl, hdl⟩)
      · exact Or.inl hp
      · exact Or.inr ⟨deps, List.mem_cons_self _ _, hd⟩
      · exact Or.inr ⟨l, List.mem_cons_of_mem _ hl, hdl⟩
    · rintro (hp | ⟨l, hl, hdl⟩)
      · exact Or.inl (Or.inl hp)
      · rcases List.mem_cons.mp hl with heq | hl
        · injection heq with h1 h2
          subst h1; subst h2
          exact Or.inl (Or.inr ⟨rfl, hdl⟩)
        · exact Or.inr ⟨l, hl, hdl⟩

theorem mem_dictGet_iff {g : Dict} (hnd : (keysOf g).Nodup) (p d : String) :
    d ∈ dictGet g p ↔ ∃ l, (p, l) ∈ g ∧ d ∈ l := by
  constructor
  · intro h
    rw [dictGet] at h
    cases hlk : List.lookup p g with
    | none => rw [hlk] at h; simp at h
    | some l => rw [hlk] at h; exact ⟨l, lookup_mem hlk, h⟩
  · rintro ⟨l, hl, hdl⟩
    rw [dictGet, mem_lookup_of_nodup hnd hl]
    exact hdl

theorem nodup_keysOf_addRevEdges (pkg : String) :
    ∀ (deps : List String) (rg : Dict), (keysOf rg).Nodup →
      (keysOf (addRevEdges pkg deps rg)).Nodup := by
  intro deps
  induction deps with
  | nil => intro rg h; simpa [addRevEdges] using h
  | cons dep rest ih =>
    intro rg h
    rw [addRevEdges]
    exact ih _ (nodup_keysOf_dictSet _ _ _ h)

theorem nodup_keysOf_buildRev :
    ∀ (g rg : Dict), (keysOf rg).Nodup →
      (keysOf (buildRevAux g rg)).Nodup := by
  intro g
  induction g with
  | nil => intro rg h; simpa [buildRevAux] using h
  | cons kv rest ih =>
    intro rg h
    obtain ⟨pkg, deps⟩ := kv
    rw [buildRevAux]
    exact ih _ (nodup_keysOf_addRevEdges pkg deps rg h)

theorem nodup_keysOf_reverseGraph (g : Dict) :
    (keysOf (buildReverseGraph g)).Nodup := by
  rw [buildReverseGraph]
  exact nodup_keysOf_buildRev g [] (by simp [keysOf_nil])

/-- Edge flipping: `(p, d)` is an edge of `g` exactly when `(d, p)` is an
edge of the reverse index built from `g`. -/
theorem reverse_edge_iff {g : Dict} (hnd : (keysOf g).Nodup) (p d : String) :
    d ∈ dictGet g p ↔ p ∈ dictGet (buildReverseGraph g) d := by
  rw [mem_dictGet_iff hnd, buildReverseGraph, buildRevAux_get]
  simp [dictGet, lookup_nil]

/-- Claim C5: building the reverse index flips exactly the edge set, and
re-reversing a reverse index reconstructs the edge membership of the
original graph. -/
theorem reverse_index_involution (g : Dict) (hnd : (keysOf g).Nodup) :
    ∀ p d, (d ∈ dictGet g p ↔ p ∈ dictGet (buildReverseGraph g) d) ∧
      (d ∈ dictGet (buildReverseGraph (buildReverseGraph g)) p ↔
        d ∈ dictGet g p) := by
  intro p d
  refine ⟨reverse_edge_iff hnd p d, ?_⟩
  exact ((reverse_edge_iff (nodup_keysOf_reverseGraph g) d p).symm).trans
    (reverse_edge_iff hnd p d).symm

/-- Witness for C5 at the graph `[("A", ["B"])]`. -/
theorem reverse_index_involution_witness :
    (keysOf [("A", ["B"])]).Nodup ∧
    (("B" ∈ dictGet [("A", ["B"])] "A" ↔
        "A" ∈ dictGet (buildReverseGraph [("A", ["B"])]) "B") ∧
      ("B" ∈ dictGet (buildReverseGraph (buildReverseGraph [("A", ["B"])]))
          "A" ↔
        "B" ∈ dictGet [("A", ["B"])] "A")) :=
  ⟨by decide, reverse_index_involution [("A", ["B"])] (by decide) "A" "B"⟩

/-! ## `generate_dot_graph` (claim C7) -/

theorem foldl_append_map (f : String → String) :
    ∀ (l acc : List String),
      l.foldl (fun a d => a ++ [f d]) acc = acc ++ l.map f := by
  intro l
  induction l with
  | nil => intro acc; simp
  | cons x xs ih =>
    intro acc
    rw [List.foldl_cons, ih, List.map_cons]
    simp

theorem dot_edges_foldl (edgeOf : String × List String → String → String) :
    ∀ (g : Dict) (acc : List String),
      g.foldl (fun a pd =>
        pd.2.foldl (fun a2 dep => a2 ++ [edgeOf pd dep]) a) acc =
      acc ++ g.flatMap (fun pd => pd.2.map (edgeOf pd)) := by
  intro g
  induction g with
  | nil => intro acc; simp
  | cons pd rest ih =>
    intro acc
    rw [List.foldl_cons, ih, foldl_append_map, List.flatMap_cons,
      List.append_assoc]

/-- Claim C7: the DOT export consists of a header declaring top-to-bottom
orientation in forward mode and bottom-to-top in reverse mode, one
styling line marking the root, and one edge statement per
(package, dependency) pair of the closure with no deduplication — drawn
`package -> dependency` forward and `dependency -> package` in reverse —
in closure iteration order, then per-node dependency-list order. -/
theorem dot_graph_spec (g : Dict) (root : String) :
    generate_dot_graph g root "dependencies" =
      joinLines (["digraph Dependencies \x7b",
        "    rankdir=TB;",
        "    node [shape=box, style=filled, fillcolor=lightblue];",
        "    \"" ++ root ++ "\" [fillcolor=orange];"] ++
        g.flatMap (fun pd => pd.2.map (fun dep => dotEdge pd.1 dep)) ++
        ["\x7d"]) ∧
    generate_dot_graph g root "reverse" =
      joinLines (["digraph ReverseDependencies \x7b",
        "    rankdir=BT;",
        "    node [shape=ellipse, style=filled, fillcolor=lightgreen];",
        "    \"" ++ root ++ "\" [fillcolor=yellow];"] ++
        g.flatMap (fun pd => pd.2.map (fun dep => dotEdge dep pd.1)) ++
        ["\x7d"]) := by
  constructor
  · simp only [generate_dot_graph, if_true, if_false]
    rw [dot_edges_foldl (fun pd dep => dotEdge pd.1 dep) g]
  · have hne : (("reverse" : String) = "dependencies") = False := by
      simp
    simp only [generate_dot_graph, hne, if_false]
    rw [dot_edges_foldl (fun pd dep => dotEdge dep pd.1) g]

/-! ## `generate_tree` (claims C6, C10) -/

/-- Concatenate a list of optional line blocks, failing if any block
failed. -/
def optConcat : List (Option (List String)) → Option (List String)
  | [] => some []
  | o :: os =>
    match o with
    | none => none
    | some a =>
      match optConcat os with
      | none => none
      | some b => some (a ++ b)

/-- The child loop renders every child but the last with the branch
connector flag and the last with the corner flag, in list order. -/
theorem renderChildren_snoc (g : Dict) (f : Nat) :
    ∀ (cs : List String) (c prfx : String),
      renderChildren g f (cs ++ [c]) prfx =
        optConcat ((cs.map (fun x => build_tree g f x prfx false)) ++
          [build_tree g f c prfx true]) := by
  intro cs
  induction cs with
  | nil =>
    intro c prfx
    have hL : renderChildren g f ([] ++ [c]) prfx =
        build_tree g f c prfx true := rfl
    rw [hL]
    cases hb : build_tree g f c prfx true with
    | none => rfl
    | some a => simp [optConcat]
  | cons c1 cs2 ih =>
    intro c prfx
    have hstep : renderChildren g f ((c1 :: cs2) ++ [c]) prfx =
        match build_tree g f c1 prfx false with
        | none => none
        | some lines =>
          match renderChildren g f (cs2 ++ [c]) prfx with
          | none => none
          | some rest => some (lines ++ rest) := by
      cases cs2 with
      | nil => rfl
      | cons c2 cs3 => rfl
    rw [hstep, ih]
    simp only [List.map_cons, List.cons_append]
    rfl

/-- Claim C6: `generate_tree` returns just the root identifier when the
root is absent from the closure; otherwise a node's line carries the
corner connector when it is a last child and the branch connector
otherwise, the continuation indent is blank under a closed branch and a
vertical bar under an open one, and children are rendered in closure
order with only the final child flagged as last. -/
theorem generate_tree_spec :
    (∀ (g : Dict) (root : String), List.lookup root g = none →
      generate_tree g root = some root) ∧
    (∀ (g : Dict) (f : Nat) (pkg prfx : String) (is_last : Bool)
        (children : List String), List.lookup pkg g = some children →
      children ≠ [] →
      build_tree g (f + 1) pkg prfx is_last =
        (renderChildren g f children
            (prfx ++ (if is_last then "    " else "│   "))).map
          (fun rest =>
            (prfx ++ (if is_last then "└── " else "├── ") ++ pkg) :: rest)) ∧
    (∀ (g : Dict) (f : Nat) (cs : List String) (c prfx : String),
      renderChildren g f (cs ++ [c]) prfx =
        optConcat ((cs.map (fun x => build_tree g f x prfx false)) ++
          [build_tree g f c prfx true])) := by
  refine ⟨?_, ?_, fun g f cs c prfx => renderChildren_snoc g f cs c prfx⟩
  · intro g root h
    rw [generate_tree, h]
  · intro g f pkg prfx is_last children hlk hne
    have hemp : ¬(children.isEmpty = true) := by
      simpa [List.isEmpty_iff] using hne
    simp only [build_tree, hlk, hemp, if_false, renderChildren]
    cases renderChildrenF (build_tree g f) children
        (prfx ++ (if is_last then "    " else "│   ")) with
    | none => rfl
    | some rest => rfl

/-- Witness for C6: the three parts at concrete inputs. -/
theorem generate_tree_spec_witness :
    generate_tree [] "pkgX" = some "pkgX" ∧
    build_tree [("A", ["B"])] (1 + 1) "A" "" true =
      (renderChildren [("A", ["B"])] 1 ["B"]
          ("" ++ (if true then "    " else "│   "))).map
        (fun rest =>
          ("" ++ (if true then "└── " else "├── ") ++ "A") :: rest) ∧
    renderChildren [("A", ["B"])] 1 ([] ++ ["B"]) "    " =
      optConcat ((([] : List String).map
          (fun x => build_tree [("A", ["B"])] 1 x "    " false)) ++
        [build_tree [("A", ["B"])] 1 "B" "    " true]) :=
  ⟨generate_tree_spec.1 [] "pkgX" rfl,
   generate_tree_spec.2.1 [("A", ["B"])] 1 "A" "" true ["B"] rfl
     (by decide),
   generate_tree_spec.2.2 [("A", ["B"])] 1 [] "B" "    "⟩

/-- Claim C10: whenever the root is a key of the closure and rendering
returns, the output starts with the corner connector immediately followed
by the root identifier, and that is the whole first line. -/
theorem generate_tree_root_line (g : Dict) (root out : String)
    (hk : (List.lookup root g).isSome)
    (h : generate_tree g root = some out) :
    ∃ rest, out = "└── " ++ root ++ rest ∧
      (rest = "" ∨ ∃ rest2, rest = "\n" ++ rest2) := by
  cases hlk : List.lookup root g with
  | none => rw [hlk] at hk; simp at hk
  | some children =>
    have hline : ("" : String) ++ "└── " ++ root = "└── " ++ root := rfl
    simp only [generate_tree, hlk, build_tree, if_true] at h
    by_cases hemp : children.isEmpty = true
    · rw [if_pos hemp] at h
      have h2 := Option.some.inj h
      refine ⟨"", ?_, Or.inl rfl⟩
      rw [String.append_empty, ← h2]
      exact hline
    · rw [if_neg hemp] at h
      cases hrc : renderChildrenF (build_tree g g.length) children
          ("" ++ "    ") with
      | none => rw [hrc] at h; simp at h
      | some rest0 =>
        rw [hrc] at h
        have h2 := Option.some.inj h
        cases rest0 with
        | nil =>
          refine ⟨"", ?_, Or.inl rfl⟩
          rw [String.append_empty, ← h2]
          exact hline
        | cons b t =>
          refine ⟨"\n" ++ joinWith "\n" (b :: t), ?_,
            Or.inr ⟨joinWith "\n" (b :: t), rfl⟩⟩
          rw [← h2, joinLines, joinWith, hline, String.append_assoc
            ("└── " ++ root) "\n" (joinWith "\n" (b :: t))]

/-- Witness for C10 at the closure `[("A", ["B"])]`. -/
theorem generate_tree_root_line_witness :
    (List.lookup "A" [("A", ["B"])]).isSome = true ∧
    ∃ rest, "└── A\n    └── B" = "└── " ++ "A" ++ rest ∧
      (rest = "" ∨ ∃ rest2, rest = "\n" ++ rest2) :=
  ⟨rfl, generate_tree_root_line [("A", ["B"])] "A" "└── A\n    └── B" rfl rfl⟩

end PacketManage
